import Mathlib

set_option maxRecDepth 8192

/-!
Verification of the format-detection / structural-parsing layer and the
security-bounded file/command access layer of the log-analysis repository.

The Python sources are embedded shallowly: strings become `List Char`
processed by structurally recursive functions, Python dicts become
insertion-ordered association lists (`dictInsert` mirrors `d[k] = v`),
raised `ToolException`s become `Except` errors with one constructor per
distinct message, and the filesystem / subprocess boundary is passed in
explicitly (a symlink table, a path oracle, file contents).
-/

/-! ## Basic helpers: Python string primitives on `List Char` -/

/-- Python whitespace predicate used by `str.strip`. -/
def pyWs (c : Char) : Bool :=
  c = ' ' || c = '\t' || c = '\n' || c = '\r' || c = Char.ofNat 11 || c = Char.ofNat 12

/-- Python `str.strip()`: drop whitespace from both ends. -/
def pyStrip (l : List Char) : List Char :=
  ((l.dropWhile pyWs).reverse.dropWhile pyWs).reverse

/-- First index of character `c`, mirroring Python `str.find` (as an option). -/
def idxOf? (c : Char) : List Char → Option Nat
  | [] => none
  | x :: xs => if x = c then some 0 else (idxOf? c xs).map (· + 1)

/-- First index at which `pat` occurs as a contiguous substring, mirroring
Python `str.find(pat)` (as an option). -/
def findSub (pat : List Char) : List Char → Option Nat
  | [] => if pat.isEmpty then some 0 else none
  | x :: xs => if pat.isPrefixOf (x :: xs) then some 0 else (findSub pat xs).map (· + 1)

/-- Python `s.split(sep)` for a single-character separator: always returns at
least one (possibly empty) segment. -/
def splitCh (sep : Char) : List Char → List (List Char)
  | [] => [[]]
  | c :: rest =>
    if c = sep then [] :: splitCh sep rest
    else
      match splitCh sep rest with
      | [] => [[c]]
      | h :: t => (c :: h) :: t

/-- Python `s.split('|')` as used by `cef_parser`. -/
def splitPipe (l : List Char) : List (List Char) := splitCh '|' l

/-- Python `'|'.join(segs)`. -/
def joinPipe : List (List Char) → List Char
  | [] => []
  | [x] => x
  | x :: rest => x ++ '|' :: joinPipe rest

/-- Python `' '.join(args)` on a list of strings, producing characters. -/
def joinSp : List String → List Char
  | [] => []
  | [a] => a.data
  | a :: rest => a.data ++ ' ' :: joinSp rest

/-- Contiguous-substring test (Python `needle in hay`). -/
def isSubstr (needle : List Char) : List Char → Bool
  | [] => needle.isEmpty
  | c :: rest => needle.isPrefixOf (c :: rest) || isSubstr needle rest

/-- Python dict assignment `d[k] = v` on an insertion-ordered association
list: overwrite in place when the key exists, append otherwise. -/
def dictInsert {α : Type} : List (String × α) → String → α → List (String × α)
  | [], k, v => [(k, v)]
  | (k', v') :: rest, k, v =>
    if k' = k then (k, v) :: rest else (k', v') :: dictInsert rest k v

/-- Python dict lookup `d[k]` on an association list (first match). -/
def dictLookup {α : Type} : List (String × α) → String → Option α
  | [], _ => none
  | (k', v) :: rest, k => if k' = k then some v else dictLookup rest k

/-- Safe positional indexing for segment lists, mirroring `parts[i]` where the
surrounding bounds check guarantees the index is in range. -/
def seg (parts : List (List Char)) (n : Nat) : List Char :=
  (parts.get? n).getD []

/-! ## CEF parser (src/utilities/tools/parsers.py) -/

/-- Distinct `ToolException`s raised by `cef_parser`. -/
inductive CefErr where
  | invalidInput : CefErr
  | markerNotFound : CefErr
  | tooFewFields (n : Nat) : CefErr
  | tooManyPipes (n : Nat) : CefErr
deriving DecidableEq

/-- Result of `cef_parser`: the dict with keys `syslog_prefix`, `cef_header`
and `extension`; the two inner dicts are insertion-ordered pair lists. -/
structure CefResult where
  syslogPart : String
  cef_header : List (String × String)
  extension : List (String × String)
deriving DecidableEq

/-- State of the `_parse_cef_extension` while-loop: the dict built so far,
the current key (Python `current_key`, `None` encoded as `none`), the value
buffer `current_value`, and the `in_value` mode flag. -/
structure ExtState where
  ext : List (String × String)
  currentKey : Option (List Char)
  currentValue : List Char
  inValue : Bool
deriving DecidableEq

/-- One-for-one translation of the `while i < len(extension_str)` loop body of
`_parse_cef_extension`, consuming the input left to right and returning the
loop state at end of input (before the post-loop flush). -/
def runExt : Nat → List Char → ExtState → ExtState
  | 0, _, st => st
  | _ + 1, [], st => st
  | fuel + 1, c :: cs, st =>
    if c = '\\' ∧ cs ≠ [] then
      runExt fuel cs.tail
        { st with
          currentValue := if st.inValue then st.currentValue ++ [cs.headD c] else st.currentValue }
    else if c = '=' ∧ st.inValue = false then
      let keyStr := pyStrip st.currentValue
      if keyStr ≠ [] then
        runExt fuel cs
          { ext := st.ext, currentKey := some keyStr, currentValue := [], inValue := true }
      else
        runExt fuel cs st
    else if c = ' ' ∧ st.inValue = true then
      match idxOf? '=' cs, idxOf? ' ' cs with
      | some e, sOpt =>
        if (match sOpt with | none => true | some s => e < s) then
          let potentialKey := pyStrip (cs.take e)
          if potentialKey ≠ [] ∧ potentialKey.all (fun ch => ch ≠ ' ' ∧ ch ≠ '=') then
            let ext' := match st.currentKey with
              | some k => dictInsert st.ext (String.mk k) (String.mk st.currentValue)
              | none => st.ext
            runExt fuel cs
              { ext := ext', currentKey := none, currentValue := [], inValue := false }
          else
            runExt fuel cs { st with currentValue := st.currentValue ++ [c] }
        else
          runExt fuel cs { st with currentValue := st.currentValue ++ [c] }
      | none, _ =>
        runExt fuel cs { st with currentValue := st.currentValue ++ [c] }
    else
      runExt fuel cs { st with currentValue := st.currentValue ++ [c] }

/-- The post-loop flush of `_parse_cef_extension`: `if current_key and
current_value:` stores the in-progress pair (Python truthiness: the key is
not `None` and nonempty, and the value buffer is nonempty). -/
def extFinalize (st : ExtState) : List (String × String) :=
  match st.currentKey with
  | some k =>
    if k ≠ [] ∧ st.currentValue ≠ [] then
      dictInsert st.ext (String.mk k) (String.mk st.currentValue)
    else st.ext
  | none => st.ext

/-- `_parse_cef_extension`: empty or blank extension yields the empty dict,
otherwise the tokeniser loop runs and the final pair is flushed. -/
def parseCefExtension (extensionStr : List Char) : List (String × String) :=
  if extensionStr = [] ∨ pyStrip extensionStr = [] then []
  else extFinalize (runExt extensionStr.length extensionStr ⟨[], none, [], false⟩)

/-- The seven fixed CEF header keys, in the order `cef_parser` writes them. -/
def cefHeaderKeys : List String :=
  ["version", "device_vendor", "device_product", "device_version",
   "signature_id", "name", "severity"]

/-- `cef_parser`: strip, locate the `CEF:` marker, split the portion after it
on `|`, enforce the 7-to-8-segment rule, build the positional header and
tokenise the remainder as the extension. -/
def cefParse (message_raw : String) : Except CefErr CefResult :=
  let t := pyStrip message_raw.data
  if t = [] then .error .invalidInput
  else
    match findSub ['C', 'E', 'F', ':'] t with
    | none => .error .markerNotFound
    | some cefStart =>
      let sysPart := pyStrip (t.take cefStart)
      let cefPortion := t.drop (cefStart + 4)
      let parts := splitPipe cefPortion
      if parts.length < 7 then .error (.tooFewFields parts.length)
      else if parts.length > 8 then .error (.tooManyPipes parts.length)
      else
        let header : List (String × String) :=
          [("version", String.mk (seg parts 0)),
           ("device_vendor", String.mk (seg parts 1)),
           ("device_product", String.mk (seg parts 2)),
           ("device_version", String.mk (seg parts 3)),
           ("signature_id", String.mk (seg parts 4)),
           ("name", String.mk (seg parts 5)),
           ("severity", String.mk (seg parts 6))]
        let extensionStr := if parts.length > 7 then joinPipe (parts.drop 7) else []
        .ok { syslogPart := String.mk sysPart
              cef_header := header
              extension := parseCefExtension extensionStr }

/-! ## Syslog key-value parser (src/utilities/tools/parsers.py) -/

/-- Distinct `ToolException`s raised by `syslog_kv_parser` and its helpers.
`outOfFuel` is an artifact of the fuelled loop encoding and is never produced
when the fuel exceeds the input length. -/
inductive SyslogErr where
  | invalidInput : SyslogErr
  | noPriStart : SyslogErr
  | noPriClose : SyslogErr
  | noPairs : SyslogErr
  | noEquals : SyslogErr
  | emptyKey : SyslogErr
  | noValue (key : String) : SyslogErr
  | unclosedQuote (key : String) : SyslogErr
  | emptyValue (key : String) : SyslogErr
  | outOfFuel : SyslogErr
deriving DecidableEq

/-- `_extract_syslog_prefix`: require a leading `<`, find the first `>`, take
everything through it verbatim as the priority token, strip the remainder and
require it nonempty. -/
def extractPri (m : List Char) : Except SyslogErr (List Char × List Char) :=
  match m with
  | [] => .error .noPriStart
  | c :: rest =>
    if c = '<' then
      match idxOf? '>' (c :: rest) with
      | none => .error .noPriClose
      | some j =>
        let priTok := (c :: rest).take (j + 1)
        let kv := pyStrip ((c :: rest).drop (j + 1))
        if kv = [] then .error .noPairs else .ok (priTok, kv)
    else .error .noPriStart

/-- `_parse_kv_key`: read up to the first `=`; fail if there is none, strip
the key, fail if it is empty; return the key and the input after the `=`. -/
def parseKvKey (l : List Char) : Except SyslogErr (List Char × List Char) :=
  let kw := l.takeWhile (· ≠ '=')
  if kw.length = l.length then .error .noEquals
  else
    let key := pyStrip kw
    if key = [] then .error .emptyKey
    else .ok (key, l.drop (kw.length + 1))

/-- The scan of `_parse_quoted_value` after the opening quote: a backslash
skips the next character (both are kept in the raw slice), and the span ends
at the first unescaped `"`; `none` means the quote is never closed. -/
def scanQuoted : List Char → Option (List Char × List Char)
  | [] => none
  | c :: rest =>
    if c = '"' then some ([], rest)
    else if c = '\\' then
      match rest with
      | [] => none
      | c2 :: rest2 => (scanQuoted rest2).map (fun p => ('\\' :: c2 :: p.1, p.2))
    else (scanQuoted rest).map (fun p => (c :: p.1, p.2))

/-- `_parse_kv_value`: at end of input fail; a leading `"` starts a quoted
value (unclosed quote fails); otherwise read an unquoted span up to the next
space, failing if it is empty. -/
def parseKvValue (l : List Char) (key : List Char) : Except SyslogErr (List Char × List Char) :=
  match l with
  | [] => .error (.noValue (String.mk key))
  | c :: body =>
    if c = '"' then
      match scanQuoted body with
      | none => .error (.unclosedQuote (String.mk key))
      | some (v, rest) => .ok (v, rest)
    else
      let v := (c :: body).takeWhile (· ≠ ' ')
      if v = [] then .error (.emptyValue (String.mk key))
      else .ok (v, (c :: body).drop v.length)

/-- The `while index < len(kv_portion)` loop of `syslog_kv_parser`: skip
spaces, stop at end of input, otherwise parse one `key=value` pair and store
it with dict assignment. The fuel argument strictly exceeds the remaining
input length at every call from `syslogKvParse`. -/
def kvLoop : Nat → List Char → List (String × String) → Except SyslogErr (List (String × String))
  | 0, _, _ => .error .outOfFuel
  | fuel + 1, l, acc =>
    let l₁ := l.dropWhile (· = ' ')
    if l₁ = [] then .ok acc
    else
      match parseKvKey l₁ with
      | .error e => .error e
      | .ok (k, rest) =>
        match parseKvValue rest k with
        | .error e => .error e
        | .ok (v, rest') => kvLoop fuel rest' (dictInsert acc (String.mk k) (String.mk v))

/-- The same loop, recording the parsed pairs in order instead of folding
them into the result dict; used to speak about which keys the loop inserts. -/
def kvPairs : Nat → List Char → Except SyslogErr (List (String × String))
  | 0, _ => .error .outOfFuel
  | fuel + 1, l =>
    let l₁ := l.dropWhile (· = ' ')
    if l₁ = [] then .ok []
    else
      match parseKvKey l₁ with
      | .error e => .error e
      | .ok (k, rest) =>
        match parseKvValue rest k with
        | .error e => .error e
        | .ok (v, rest') => (kvPairs fuel rest').map ((String.mk k, String.mk v) :: ·)

/-- `syslog_kv_parser`: strip, reject empty input, extract the priority
token, seed the result dict with the reserved `prefix` key and run the
pair loop over the remainder. -/
def syslogKvParse (message_raw : String) : Except SyslogErr (List (String × String)) :=
  let t := pyStrip message_raw.data
  if t = [] then .error .invalidInput
  else
    match extractPri t with
    | .error e => .error e
    | .ok (priTok, kv) => kvLoop (kv.length + 1) kv [("prefix", String.mk priTok)]

/-! ## PathGuard (src/utilities/paths.py)

`Path.resolve()` is an OS call, so the filesystem enters the model explicitly:
a table of symlinks mapping a resolved absolute path (as segments) to an
absolute target (as segments), plus the current working directory for
relative paths. Resolution follows POSIX `realpath` as Python's `resolve`
does: segments are processed left to right, `.` and empty segments vanish,
`..` pops the already-resolved part, and a symlink replaces it with the
target before processing continues. The fuel bounds symlink expansion;
running out models `resolve()` raising on a symlink loop. -/

/-- A symlink table: resolved absolute source path to absolute target path. -/
abbrev SymFS : Type := List (List String × List String)

/-- Lookup in the symlink table. -/
def fsLookup : SymFS → List String → Option (List String)
  | [], _ => none
  | (src, tgt) :: rest, p => if src = p then some tgt else fsLookup rest p

/-- Left-to-right canonicalisation of path segments against the symlink
table, the core of `Path.resolve()`. -/
def resolveSegs (fs : SymFS) : Nat → List String → List String → Option (List String)
  | 0, _, _ => none
  | _ + 1, acc, [] => some acc
  | fuel + 1, acc, s :: rest =>
    if s = "" ∨ s = "." then resolveSegs fs fuel acc rest
    else if s = ".." then resolveSegs fs fuel acc.dropLast rest
    else
      match fsLookup fs (acc ++ [s]) with
      | some target => resolveSegs fs fuel [] (target ++ rest)
      | none => resolveSegs fs fuel (acc ++ [s]) rest

/-- Split a path string into segments; a relative path is interpreted
against the working directory, as `Path.resolve()` does. -/
def pathSegsOf (cwd : List String) (p : String) : List String :=
  match p.data with
  | '/' :: _ => (splitCh '/' p.data).map String.mk
  | _ => cwd ++ (splitCh '/' p.data).map String.mk

/-- Fuel that always suffices when no symlink is involved and grows with the
table, so that only genuinely looping tables exhaust it. -/
def resolveFuel (fs : SymFS) (n : Nat) : Nat :=
  n + 1 + (List.map (fun e => e.2.length + 2) fs).sum * (List.length fs + 1) * (n + 1)

/-- `Path(p).resolve()` in the model: canonical absolute segments, or `none`
when resolution fails (symlink loop). -/
def resolvePath (fs : SymFS) (cwd : List String) (p : String) : Option (List String) :=
  let segs := pathSegsOf cwd p
  resolveSegs fs (resolveFuel fs segs.length) [] segs

/-- `is_path_allowed`: resolve the path (failure raises), then scan the
allowed directories, skipping any that fails to resolve, and answer whether
some resolved root is a segment-wise prefix of the resolved path
(`Path.relative_to` succeeds exactly then). -/
def isPathAllowed (fs : SymFS) (cwd : List String) (path : String)
    (allowed_dirs : List String) : Except String Bool :=
  match resolvePath fs cwd path with
  | none => .error "Invalid path"
  | some rp =>
    .ok (allowed_dirs.any fun d =>
      match resolvePath fs cwd d with
      | some rd => rd.isPrefixOf rp
      | none => false)

/-! ## CommandAllowlist (src/utilities/tools/code_ops.py)

`is_path_allowed(arg, ALLOWED_READ_DIRS)` is abstracted as an oracle
`pathOk : String → Bool` and `ALLOWED_READ_DIRS[0]` as `defaultCwd`, since
the claims about this component hold for every filesystem. -/

/-- One entry of the `ALLOWED_COMMANDS` policy table. -/
structure CommandInfo where
  executable : String
  description : String
  allowed_args : List String
  requires_file_arg : Bool
  forbidden_patterns : List String

/-- The `pytest` policy entry. -/
def pytestInfo : CommandInfo :=
  { executable := "pytest"
    description := "Run pytest tests"
    allowed_args := ["--version", "-v", "--verbose", "-x", "--tb=short", "--tb=long", "-k"]
    requires_file_arg := true
    forbidden_patterns := [] }

/-- The `python` policy entry. -/
def pythonInfo : CommandInfo :=
  { executable := "python"
    description := "Run Python scripts (syntax check, compile)"
    allowed_args := ["--version", "-m", "py_compile"]
    requires_file_arg := false
    forbidden_patterns := ["-c", "--command", "exec", "eval", "os.system", "subprocess"] }

/-- The `black` policy entry. -/
def blackInfo : CommandInfo :=
  { executable := "black"
    description := "Format Python code"
    allowed_args := ["--version", "--check", "--diff", "--line-length"]
    requires_file_arg := true
    forbidden_patterns := [] }

/-- The `ruff` policy entry. -/
def ruffInfo : CommandInfo :=
  { executable := "ruff"
    description := "Lint Python code"
    allowed_args := ["--version", "check"]
    requires_file_arg := false
    forbidden_patterns := [] }

/-- The fixed `ALLOWED_COMMANDS` policy, copied from the source. -/
def ALLOWED_COMMANDS : List (String × CommandInfo) :=
  [("pytest", pytestInfo), ("python", pythonInfo), ("black", blackInfo), ("ruff", ruffInfo)]

/-- Distinct `ToolException`s of the command validation path. -/
inductive CmdErr where
  | unknownType : CmdErr
  | forbiddenPattern (pat : String) (commandType : String) : CmdErr
  | argNotAllowed (arg : String) (commandType : String) : CmdErr
  | pathNotAllowed (arg : String) : CmdErr
  | wdNotAllowed (wd : String) : CmdErr
deriving DecidableEq

/-- `arg.endswith(('.py', '.jsonl', '.json', '.txt'))`. -/
def endsWithExt (arg : String) : Bool :=
  arg.endsWith ".py" || arg.endsWith ".jsonl" || arg.endsWith ".json" || arg.endsWith ".txt"

/-- Python `str.isdigit` restricted to ASCII digits. -/
def pyIsDigit (s : String) : Bool :=
  !s.data.isEmpty && s.data.all (fun c => '0' ≤ c && c ≤ '9')

/-- Python `args[i - 1]` for `i = args.index(arg)`: index `0` wraps to the
last element, as Python negative indexing does. -/
def pyPrev (args : List String) (i : Nat) : Option String :=
  if i = 0 then args.getLast? else args.get? (i - 1)

/-- The `continue` conditions of the per-argument allowlist loop in
`_validate_command_args`: path-looking arguments, digit arguments, and the
argument following the first occurrence of the value `-k`. -/
def argSkips (args : List String) (arg : String) : Bool :=
  endsWithExt arg || arg.data.contains '/' || pyIsDigit arg ||
    (args.length > 1 && pyPrev args (args.indexOf arg) == some "-k")

/-- The allowlist test: exact match or `name=value` prefix match. -/
def argAllowed (info : CommandInfo) (arg : String) : Bool :=
  info.allowed_args.any (fun al => arg == al || arg.startsWith (al ++ "="))

/-- `_validate_command_args`: the forbidden-pattern scan over the
space-joined arguments, then the per-argument allowlist loop, then the
path re-check loop; the first violation in program order is reported. -/
def validateCommandArgs (pathOk : String → Bool) (commandType : String)
    (info : CommandInfo) (args : List String) : Except CmdErr Unit :=
  match info.forbidden_patterns.find? (fun p => isSubstr p.data (joinSp args)) with
  | some p => .error (.forbiddenPattern p commandType)
  | none =>
    match args.find? (fun arg => !argSkips args arg && !argAllowed info arg) with
    | some arg => .error (.argNotAllowed arg commandType)
    | none =>
      match args.find? (fun arg => (arg.data.contains '/' || endsWithExt arg) && !pathOk arg) with
      | some arg => .error (.pathNotAllowed arg)
      | none => .ok ()

/-- The command line and working directory `run_safe_command` would hand to
`subprocess.run`; validation succeeding is exactly reaching the spawn. -/
structure SpawnSpec where
  cmd : List String
  cwd : String
deriving DecidableEq

/-- The validation phase of `run_safe_command`, everything before the
`subprocess.run` call: unknown command types are rejected first, then the
arguments are validated, then the working directory is checked (defaulting
to `ALLOWED_READ_DIRS[0]`). An `Except.error` is a `ToolException` raised
before any process is spawned. -/
def runSafeCommandValidate (pathOk : String → Bool) (defaultCwd : String)
    (command_type : String) (command_args : List String)
    (working_directory : Option String) : Except CmdErr SpawnSpec :=
  match dictLookup ALLOWED_COMMANDS command_type with
  | none => .error .unknownType
  | some info =>
    match validateCommandArgs pathOk command_type info command_args with
    | .error e => .error e
    | .ok _ =>
      match working_directory with
      | some wd =>
        if pathOk wd then .ok ⟨info.executable :: command_args, wd⟩
        else .error (.wdNotAllowed wd)
      | none => .ok ⟨info.executable :: command_args, defaultCwd⟩

/-! ## HandleRegistry and streaming JSONL reads
(src/utilities/handles_registry.py, src/utilities/tools/file_ops.py)

An open text stream is modelled as the file's lines plus a cursor; `islice`
reading `n` lines is `take n` at the cursor. The registry is the
insertion-ordered id-to-entry dict. -/

/-- `FileHandleEntry` together with its open stream: `content` is the lines
of the file backing the handle and `pos` the implicit stream cursor. -/
structure FileEntry where
  id : String
  path : String
  lines_read : Nat
  content : List String
  pos : Nat
deriving DecidableEq

/-- The `HandlesRegistry.id_to_handle` dict. -/
abbrev Registry : Type := List (String × FileEntry)

/-- Removal `del self.id_to_handle[id]`. -/
def dictRemove {α : Type} : List (String × α) → String → List (String × α)
  | [], _ => []
  | (k', v) :: rest, k => if k' = k then rest else (k', v) :: dictRemove rest k

/-- Distinct errors of the JSONL handle tools. -/
inductive HandleErr where
  | badCount : HandleErr
  | invalidHandle : HandleErr
  | closeFailed (id : String) : HandleErr
deriving DecidableEq

/-- `open_and_register_jsonl` after the existence and extension checks:
open a stream at offset 0 and store a fresh entry under the generated id. -/
def openJsonl (reg : Registry) (path : String) (fileLines : List String)
    (newId : String) : Registry :=
  dictInsert reg newId ⟨newId, path, 0, fileLines, 0⟩

/-- `read_jsonl`: reject a non-positive count, fail with the invalid-handle
error when the id is not registered, otherwise read up to `n` lines at the
cursor, advance it, and increment `lines_read` by the number actually read. -/
def readJsonl (reg : Registry) (handle_entry_id : String) (number_of_lines : Nat) :
    Except HandleErr (List String × Registry) :=
  if number_of_lines < 1 then .error .badCount
  else
    match dictLookup reg handle_entry_id with
    | none => .error .invalidHandle
    | some e =>
      let data := (e.content.drop e.pos).take number_of_lines
      .ok (data, dictInsert reg handle_entry_id
        { e with pos := e.pos + data.length, lines_read := e.lines_read + data.length })

/-- `close_jsonl` via `HandlesRegistry.close_and_remove_handle_entry`: an
unknown (or already closed) id raises; otherwise the stream is closed and
the entry removed. Closing is not idempotent. -/
def closeJsonl (reg : Registry) (handle_entry_id : String) : Except HandleErr Registry :=
  match dictLookup reg handle_entry_id with
  | none => .error (.closeFailed handle_entry_id)
  | some _ => .ok (dictRemove reg handle_entry_id)

/-! ## JSON decoding model

Modelled from the spec: `json_parser` delegates decoding to a "standard JSON
decode" (`json.loads`) and serialisation to the standard encoder, which are
library code outside this repository. The model keeps numbers as their
literal spelling (sign, integer digits, optional fraction digits, optional
exponent), so decoding is exact; objects are insertion-ordered with a
repeated key keeping the last value, as `json.loads` does. Known deviations,
all invisible to the claims below: `NaN`/`Infinity` extensions are not
accepted, surrogate pairs in `\uXXXX` escapes are not combined, unescaped
control characters inside strings are tolerated, and a trailing comma is
tolerated. -/

/-- A JSON number literal kept as spelled: sign, integer digits, optional
fraction digits, optional exponent (explicit sign `some true` = `-`,
`some false` = `+`). -/
structure NumLit where
  neg : Bool
  ip : List Char
  fp : Option (List Char)
  ep : Option (Option Bool × List Char)
deriving DecidableEq

/-- Decoded JSON values. -/
inductive Json where
  | null : Json
  | bool (b : Bool) : Json
  | num (n : NumLit) : Json
  | str (s : String) : Json
  | arr (xs : List Json) : Json
  | obj (fields : List (String × Json)) : Json

/-- JSON whitespace. -/
def jWs (c : Char) : Bool :=
  c = ' ' || c = '\t' || c = '\n' || c = '\r'

/-- Skip JSON whitespace. -/
def skipWs (l : List Char) : List Char := l.dropWhile jWs

/-- Hexadecimal digit value. -/
def hexVal (c : Char) : Option Nat :=
  if '0' ≤ c ∧ c ≤ '9' then some (c.toNat - 48)
  else if 'a' ≤ c ∧ c ≤ 'f' then some (c.toNat - 87)
  else if 'A' ≤ c ∧ c ≤ 'F' then some (c.toNat - 55)
  else none

/-- Single-character string escapes. -/
def escChar : Char → Option Char
  | '"' => some '"'
  | '\\' => some '\\'
  | '/' => some '/'
  | 'b' => some (Char.ofNat 8)
  | 'f' => some (Char.ofNat 12)
  | 'n' => some '\n'
  | 'r' => some '\r'
  | 't' => some '\t'
  | _ => none

/-- Scan a JSON string body after the opening quote, returning the decoded
characters and the input after the closing quote. -/
def parseStringBody : List Char → Option (List Char × List Char)
  | [] => none
  | c :: rest =>
    if c = '"' then some ([], rest)
    else if c = '\\' then
      match rest with
      | [] => none
      | e :: rest2 =>
        if e = 'u' then
          match rest2 with
          | h1 :: h2 :: h3 :: h4 :: rest3 =>
            match hexVal h1, hexVal h2, hexVal h3, hexVal h4 with
            | some a, some b, some c', some d =>
              (parseStringBody rest3).map
                (fun p => (Char.ofNat (((a * 16 + b) * 16 + c') * 16 + d) :: p.1, p.2))
            | _, _, _, _ => none
          | _ => none
        else
          match escChar e with
          | some ec => (parseStringBody rest2).map (fun p => (ec :: p.1, p.2))
          | none => none
    else (parseStringBody rest).map (fun p => (c :: p.1, p.2))

/-- Optional fraction part `.digits` of a number literal. -/
def parseFracPart (l : List Char) : Option (Option (List Char) × List Char) :=
  match l with
  | [] => some (none, [])
  | c :: r =>
    if c = '.' then
      let d := r.takeWhile Char.isDigit
      if d.isEmpty then none else some (some d, r.drop d.length)
    else some (none, c :: r)

/-- Optional sign at the head of an exponent. -/
def parseExpSign (r : List Char) : Option Bool × List Char :=
  match r with
  | [] => (none, [])
  | c2 :: rr =>
    if c2 = '-' then (some true, rr)
    else if c2 = '+' then (some false, rr)
    else (none, c2 :: rr)

/-- Optional exponent part `[eE][+-]?digits` of a number literal. -/
def parseExpPart (l : List Char) : Option (Option (Option Bool × List Char) × List Char) :=
  match l with
  | c :: r =>
    if c = 'e' ∨ c = 'E' then
      let p := parseExpSign r
      let d := p.2.takeWhile Char.isDigit
      if d.isEmpty then none else some (some (p.1, d), p.2.drop d.length)
    else some (none, c :: r)
  | [] => some (none, [])

/-- Parse a number literal at the head of the input. -/
def parseNumLit (l : List Char) : Option (NumLit × List Char) :=
  let p : Bool × List Char :=
    match l with
    | [] => (false, [])
    | c :: r => if c = '-' then (true, r) else (false, c :: r)
  let ip := p.2.takeWhile Char.isDigit
  if ip.isEmpty then none
  else
    match parseFracPart (p.2.drop ip.length) with
    | none => none
    | some (fp, l2) =>
      match parseExpPart l2 with
      | none => none
      | some (ep, l3) => some (⟨p.1, ip, fp, ep⟩, l3)

/-- Build an object from parsed members with dict semantics: a repeated key
keeps its first position and the last value, as a Python dict does. -/
def mkObj (ps : List (String × Json)) : List (String × Json) :=
  ps.foldl (fun m p => dictInsert m p.1 p.2) []

mutual

/-- Recursive-descent JSON value parser; the fuel strictly exceeds the
remaining input length at every call from `jsonLoads`. -/
def parseValue : Nat → List Char → Option (Json × List Char)
  | 0, _ => none
  | fuel + 1, l =>
    match skipWs l with
    | [] => none
    | c :: r =>
      if c = '{' then
        (parseObjBody fuel (skipWs r)).map (fun p => (Json.obj (mkObj p.1), p.2))
      else if c = '[' then
        (parseArrBody fuel (skipWs r)).map (fun p => (Json.arr p.1, p.2))
      else if c = '"' then
        (parseStringBody r).map (fun p => (Json.str (String.mk p.1), p.2))
      else if ['t', 'r', 'u', 'e'].isPrefixOf (c :: r) then
        some (Json.bool true, (c :: r).drop 4)
      else if ['f', 'a', 'l', 's', 'e'].isPrefixOf (c :: r) then
        some (Json.bool false, (c :: r).drop 5)
      else if ['n', 'u', 'l', 'l'].isPrefixOf (c :: r) then
        some (Json.null, (c :: r).drop 4)
      else
        (parseNumLit (c :: r)).map (fun p => (Json.num p.1, p.2))

/-- Members of an object, after `{` and leading whitespace. -/
def parseObjBody : Nat → List Char → Option (List (String × Json) × List Char)
  | 0, _ => none
  | fuel + 1, l =>
    match l with
    | [] => none
    | c :: r =>
      if c = '}' then some ([], r)
      else if c = '"' then
        match parseStringBody r with
        | none => none
        | some (k, r1) =>
          match skipWs r1 with
          | [] => none
          | c2 :: r2 =>
            if c2 = ':' then
              match parseValue fuel r2 with
              | none => none
              | some (v, r3) =>
                match skipWs r3 with
                | [] => none
                | c3 :: r4 =>
                  if c3 = ',' then
                    (parseObjBody fuel (skipWs r4)).map
                      (fun p => ((String.mk k, v) :: p.1, p.2))
                  else if c3 = '}' then some ([(String.mk k, v)], r4)
                  else none
            else none
      else none

/-- Elements of an array, after `[` and leading whitespace. -/
def parseArrBody : Nat → List Char → Option (List Json × List Char)
  | 0, _ => none
  | fuel + 1, l =>
    if l.headD ' ' = ']' then some ([], l.tail)
    else
      match parseValue fuel l with
      | none => none
      | some (v, r1) =>
        match skipWs r1 with
        | [] => none
        | c2 :: r2 =>
          if c2 = ',' then (parseArrBody fuel (skipWs r2)).map (fun p => (v :: p.1, p.2))
          else if c2 = ']' then some ([v], r2)
          else none

end

/-- `json.loads` in the model: parse one value and require only whitespace
after it. -/
def jsonLoads (s : String) : Option Json :=
  match parseValue (s.length + 1) s.data with
  | some (v, rest) => if skipWs rest = [] then some v else none
  | none => none

/-- Escape a string body for printing: only `"` and `\` are escaped. -/
def escStr : List Char → List Char
  | [] => []
  | c :: rest =>
    if c = '"' ∨ c = '\\' then '\\' :: c :: escStr rest else c :: escStr rest

/-- Print the fraction part of a number literal. -/
def printFracPart (fp : Option (List Char)) : List Char :=
  match fp with
  | some d => '.' :: d
  | none => []

/-- Print the exponent part of a number literal. -/
def printExpPart (ep : Option (Option Bool × List Char)) : List Char :=
  match ep with
  | some (sgn, d) =>
    'e' :: ((match sgn with
             | some true => ['-']
             | some false => ['+']
             | none => []) ++ d)
  | none => []

/-- Print a number literal as spelled. -/
def printNum (n : NumLit) : List Char :=
  (if n.neg then ['-'] else []) ++
    (n.ip ++ (printFracPart n.fp ++ printExpPart n.ep))

mutual

/-- Serialise a JSON value compactly (the standard encoder up to optional
whitespace, which `json.loads` ignores anyway). -/
def jprint : Json → List Char
  | .null => "null".data
  | .bool true => "true".data
  | .bool false => "false".data
  | .num n => printNum n
  | .str s => '"' :: (escStr s.data ++ ['"'])
  | .arr xs => '[' :: (jprintBodyA xs ++ [']'])
  | .obj fs => '{' :: (jprintBodyO fs ++ ['}'])

/-- Array elements, comma separated. -/
def jprintBodyA : List Json → List Char
  | [] => []
  | [x] => jprint x
  | x :: xs => jprint x ++ ',' :: jprintBodyA xs

/-- Object members, comma separated. -/
def jprintBodyO : List (String × Json) → List Char
  | [] => []
  | [m] => printMember m
  | m :: fs => printMember m ++ ',' :: jprintBodyO fs

/-- One `"key":value` member. -/
def printMember : String × Json → List Char
  | (k, v) => '"' :: (escStr k.data ++ '"' :: ':' :: jprint v)

end

/-- No duplicates among object keys. -/
def nodupKeys : List String → Bool
  | [] => true
  | k :: ks => !ks.contains k && nodupKeys ks

/-- Well-spelled number literal: nonempty digit runs everywhere. -/
def numWf (n : NumLit) : Bool :=
  !n.ip.isEmpty && n.ip.all Char.isDigit &&
    (match n.fp with | some d => !d.isEmpty && d.all Char.isDigit | none => true) &&
    (match n.ep with | some (_, d) => !d.isEmpty && d.all Char.isDigit | none => true)

mutual

/-- Values the parser can produce: well-spelled numbers and objects with
distinct keys (dict semantics guarantees the latter). -/
def jwf : Json → Bool
  | .null => true
  | .bool _ => true
  | .num n => numWf n
  | .str _ => true
  | .arr xs => jwfL xs
  | .obj fs => nodupKeys (fs.map Prod.fst) && jwfF fs

/-- All array elements well formed. -/
def jwfL : List Json → Bool
  | [] => true
  | x :: xs => jwf x && jwfL xs

/-- All object values well formed. -/
def jwfF : List (String × Json) → Bool
  | [] => true
  | m :: fs => jwf m.2 && jwfF fs

end

/-- The characters that could extend a number literal: a printed number
followed by such a character would parse differently. -/
def numCont (c : Char) : Bool :=
  c.isDigit || c = '.' || c = 'e' || c = 'E'

/-- The continuation is safe after a printed number. -/
def notNumCont (rest : List Char) : Bool :=
  match rest with
  | [] => true
  | c :: _ => !numCont c

/-- The continuation is safe after a printed value: only numbers care. -/
def delimOk (v : Json) (rest : List Char) : Bool :=
  match v with
  | .num _ => notNumCont rest
  | _ => true

/-- Distinct `ToolException`s raised by `json_parser`. -/
inductive JsonToolErr where
  | invalidInput : JsonToolErr
  | invalidJson : JsonToolErr
  | notDict : JsonToolErr
deriving DecidableEq

/-- `json_parser`: strip, reject empty input, decode, reject non-object
top-level values, and return the decoded object's fields. -/
def jsonParseTool (message_raw : String) : Except JsonToolErr (List (String × Json)) :=
  let t := pyStrip message_raw.data
  if t = [] then .error .invalidInput
  else
    match jsonLoads (String.mk t) with
    | none => .error .invalidJson
    | some (Json.obj fields) => .ok fields
    | some _ => .error .notDict

/-! ## SchemaDocument validation
(src/utilities/tools/schema_validation.py, src/logs_analysis_agent/schema_models.py)

The field names, required/optional status, defaults and numeric bounds are
copied from the pydantic model declarations in `schema_models.py`. The
validation engine itself (pydantic) is library code outside the repository;
modelled from the spec: decoding failures, non-object payloads, missing
required fields, wrong-typed fields and bound violations are each rejected,
all-or-nothing. -/

/-- Distinct validation failures of `parse_and_validate_schema_document`. -/
inductive SchemaValErr where
  | notJson : SchemaValErr
  | notDict : SchemaValErr
  | missing (fieldName : String) : SchemaValErr
  | badType (fieldName : String) : SchemaValErr
  | outOfRange (fieldName : String) : SchemaValErr
deriving DecidableEq

/-- Numeric value of a digit run. -/
def digitsToNat (l : List Char) : Nat :=
  l.foldl (fun a c => a * 10 + (c.toNat - 48)) 0

/-- Fraction digits of a number literal (empty when absent). -/
def numFrac (n : NumLit) : List Char :=
  match n.fp with | some d => d | none => []

/-- Signed mantissa of a number literal read as `mantissa * 10 ^ exponent`. -/
def numMant (n : NumLit) : Int :=
  let m : Nat := digitsToNat n.ip * 10 ^ (numFrac n).length + digitsToNat (numFrac n)
  if n.neg then -(m : Int) else (m : Int)

/-- Exponent of a number literal read as `mantissa * 10 ^ exponent`. -/
def numExpVal (n : NumLit) : Int :=
  (match n.ep with
   | some (sgn, d) =>
     if sgn = some true then -(digitsToNat d : Int) else (digitsToNat d : Int)
   | none => 0) - (numFrac n).length

/-- The literal's value is at least 0. -/
def numNonneg (n : NumLit) : Bool := 0 ≤ numMant n

/-- The literal's value is at most 1. -/
def numLe1 (n : NumLit) : Bool :=
  if 0 ≤ numExpVal n then numMant n * 10 ^ (numExpVal n).toNat ≤ 1
  else numMant n ≤ 10 ^ ((-numExpVal n).toNat)

/-- The literal denotes an integer. -/
def numIsInt (n : NumLit) : Bool :=
  if 0 ≤ numExpVal n then true
  else numMant n % ((10 : Int) ^ ((-numExpVal n).toNat)) = 0

/-- The denoted integer (meaningful when `numIsInt`). -/
def numToInt (n : NumLit) : Int :=
  if 0 ≤ numExpVal n then numMant n * 10 ^ (numExpVal n).toNat
  else numMant n / ((10 : Int) ^ ((-numExpVal n).toNat))

/-- `IdentificationRule`. -/
structure IdentificationRuleM where
  field : String
  operator : String
  value : Json
  confidence : NumLit

/-- `IdentificationRules`: `secondary` defaults to the empty list. -/
structure IdentificationRulesM where
  primary : List IdentificationRuleM
  secondary : List IdentificationRuleM

/-- `ParsedFieldMetadata` with its declared defaults. -/
structure ParsedFieldMetadataM where
  field_path : String
  parsers_or_formats : List String
  resulting_field_paths : List String
  parent_parsed_field : Option String
  parse_level : Int

/-- `FieldSchema` with its declared defaults. -/
structure FieldSchemaM where
  field_path : String
  semantic_type : String
  examples : List Json
  common_patterns : List String

/-- `LogType`. -/
structure LogTypeM where
  name : String
  primary_use : String
  count_in_dataset : Int
  identification_rules : IdentificationRulesM
  schema : List (String × FieldSchemaM)
  parsing_metadata : List ParsedFieldMetadataM

/-- `SchemaDocument`. -/
structure SchemaDocumentM where
  index_name : String
  total_logs_analyzed : Int
  analysis_batches_processed : Int
  log_types : List (String × LogTypeM)
  analysis_confidence : NumLit
  stopping_reason : String
  data_quality_issues : List String
  requires_human_review : Bool
  analysis_notes : String
  processing_time_minutes : NumLit

/-- A required field: absence is a validation failure naming the field. -/
def reqField (o : List (String × Json)) (k : String) : Except SchemaValErr Json :=
  match dictLookup o k with
  | some v => .ok v
  | none => .error (.missing k)

/-- An optional field with a declared default. -/
def optField {α : Type} (o : List (String × Json)) (k : String) (dflt : α)
    (f : Json → Except SchemaValErr α) : Except SchemaValErr α :=
  match dictLookup o k with
  | some v => f v
  | none => .ok dflt

/-- Expect a JSON string. -/
def vStr (k : String) : Json → Except SchemaValErr String
  | .str s => .ok s
  | _ => .error (.badType k)

/-- Expect a JSON boolean. -/
def vBool (k : String) : Json → Except SchemaValErr Bool
  | .bool b => .ok b
  | _ => .error (.badType k)

/-- Expect a JSON number. -/
def vNum (k : String) : Json → Except SchemaValErr NumLit
  | .num n => .ok n
  | _ => .error (.badType k)

/-- Expect an integral JSON number. -/
def vInt (k : String) : Json → Except SchemaValErr Int
  | .num n => if numIsInt n then .ok (numToInt n) else .error (.badType k)
  | _ => .error (.badType k)

/-- An `int` field declared `ge=0`. -/
def vIntGe0 (k : String) (j : Json) : Except SchemaValErr Int := do
  let i ← vInt k j
  if 0 ≤ i then .ok i else .error (.outOfRange k)

/-- A `float` field declared `ge=0.0, le=1.0`. -/
def vUnitNum (k : String) (j : Json) : Except SchemaValErr NumLit := do
  let n ← vNum k j
  if numNonneg n && numLe1 n then .ok n else .error (.outOfRange k)

/-- A `float` field declared `ge=0.0`. -/
def vNumGe0 (k : String) (j : Json) : Except SchemaValErr NumLit := do
  let n ← vNum k j
  if numNonneg n then .ok n else .error (.outOfRange k)

/-- A `List[str]` field. -/
def vStrList (k : String) : Json → Except SchemaValErr (List String)
  | .arr xs => xs.mapM (vStr k)
  | _ => .error (.badType k)

/-- An `Optional[str]` field, `null` allowed. -/
def vOptStr (k : String) : Json → Except SchemaValErr (Option String)
  | .null => .ok none
  | .str s => .ok (some s)
  | _ => .error (.badType k)

/-- A `List[Any]` field. -/
def vAnyList (k : String) : Json → Except SchemaValErr (List Json)
  | .arr xs => .ok xs
  | _ => .error (.badType k)

/-- Validate one `IdentificationRule` object. -/
def validateIdentificationRule (j : Json) : Except SchemaValErr IdentificationRuleM :=
  match j with
  | .obj o => do
    let f ← reqField o "field" >>= vStr "field"
    let op ← reqField o "operator" >>= vStr "operator"
    let v ← reqField o "value"
    let c ← reqField o "confidence" >>= vUnitNum "confidence"
    .ok ⟨f, op, v, c⟩
  | _ => .error (.badType "identification_rule")

/-- Validate a `List[IdentificationRule]` field. -/
def validateRuleList (k : String) : Json → Except SchemaValErr (List IdentificationRuleM)
  | .arr xs => xs.mapM validateIdentificationRule
  | _ => .error (.badType k)

/-- Validate an `IdentificationRules` object. -/
def validateIdentificationRules (j : Json) : Except SchemaValErr IdentificationRulesM :=
  match j with
  | .obj o => do
    let p ← reqField o "primary" >>= validateRuleList "primary"
    let s ← optField o "secondary" [] (validateRuleList "secondary")
    .ok ⟨p, s⟩
  | _ => .error (.badType "identification_rules")

/-- Validate one `ParsedFieldMetadata` object. -/
def validateParsedFieldMetadata (j : Json) : Except SchemaValErr ParsedFieldMetadataM :=
  match j with
  | .obj o => do
    let fp ← reqField o "field_path" >>= vStr "field_path"
    let pf ← reqField o "parsers_or_formats" >>= vStrList "parsers_or_formats"
    let rf ← optField o "resulting_field_paths" [] (vStrList "resulting_field_paths")
    let pp ← optField o "parent_parsed_field" none (vOptStr "parent_parsed_field")
    let pl ← optField o "parse_level" 0 (vInt "parse_level")
    .ok ⟨fp, pf, rf, pp, pl⟩
  | _ => .error (.badType "parsing_metadata")

/-- Validate one `FieldSchema` object. -/
def validateFieldSchema (j : Json) : Except SchemaValErr FieldSchemaM :=
  match j with
  | .obj o => do
    let fp ← reqField o "field_path" >>= vStr "field_path"
    let st ← reqField o "semantic_type" >>= vStr "semantic_type"
    let ex ← optField o "examples" [] (vAnyList "examples")
    let cp ← optField o "common_patterns" [] (vStrList "common_patterns")
    .ok ⟨fp, st, ex, cp⟩
  | _ => .error (.badType "field_schema")

/-- Validate a `Dict[str, ...]` field value-wise, keeping key order. -/
def validateObjOf {α : Type} (k : String) (f : Json → Except SchemaValErr α) :
    Json → Except SchemaValErr (List (String × α))
  | .obj o => o.mapM (fun p => (f p.2).map (fun a => (p.1, a)))
  | _ => .error (.badType k)

/-- Validate one `LogType` object. -/
def validateLogType (j : Json) : Except SchemaValErr LogTypeM :=
  match j with
  | .obj o => do
    let nm ← reqField o "name" >>= vStr "name"
    let pu ← reqField o "primary_use" >>= vStr "primary_use"
    let cd ← reqField o "count_in_dataset" >>= vIntGe0 "count_in_dataset"
    let ir ← reqField o "identification_rules" >>= validateIdentificationRules
    let sc ← reqField o "schema" >>= validateObjOf "schema" validateFieldSchema
    let pm ← optField o "parsing_metadata" []
      (fun j' =>
        match j' with
        | .arr xs => xs.mapM validateParsedFieldMetadata
        | _ => .error (.badType "parsing_metadata"))
    .ok ⟨nm, pu, cd, ir, sc, pm⟩
  | _ => .error (.badType "log_type")

/-- Validate a decoded payload against `SchemaDocument`, field declarations
in source order; a non-object payload is the not-a-dictionary failure. -/
def validateSchemaDocument (j : Json) : Except SchemaValErr SchemaDocumentM :=
  match j with
  | .obj o => do
    let ixn ← reqField o "index_name" >>= vStr "index_name"
    let tla ← reqField o "total_logs_analyzed" >>= vIntGe0 "total_logs_analyzed"
    let abp ← reqField o "analysis_batches_processed" >>= vIntGe0 "analysis_batches_processed"
    let lt ← reqField o "log_types" >>= validateObjOf "log_types" validateLogType
    let ac ← reqField o "analysis_confidence" >>= vUnitNum "analysis_confidence"
    let sr ← reqField o "stopping_reason" >>= vStr "stopping_reason"
    let dqi ← optField o "data_quality_issues" [] (vStrList "data_quality_issues")
    let rhr ← reqField o "requires_human_review" >>= vBool "requires_human_review"
    let an ← reqField o "analysis_notes" >>= vStr "analysis_notes"
    let ptm ← reqField o "processing_time_minutes" >>= vNumGe0 "processing_time_minutes"
    .ok ⟨ixn, tla, abp, lt, ac, sr, dqi, rhr, an, ptm⟩
  | _ => .error .notDict

/-- `parse_and_validate_schema_document`: JSON-decode the text (failure is
the not-valid-JSON error), then validate the payload. -/
def parseAndValidateSchemaDocument (text : String) :
    Except SchemaValErr SchemaDocumentM :=
  match jsonLoads text with
  | none => .error .notJson
  | some j => validateSchemaDocument j

/-- The JSON number `0`. -/
def jz : Json := Json.num ⟨false, ['0'], none, none⟩

/-- The JSON number `1`. -/
def jone : Json := Json.num ⟨false, ['1'], none, none⟩

/-- A minimal `SchemaDocument` payload: every required field present,
`log_types` the empty mapping. -/
def minimalDocFields : List (String × Json) :=
  [("index_name", .str "idx"),
   ("total_logs_analyzed", jz),
   ("analysis_batches_processed", jz),
   ("log_types", .obj []),
   ("analysis_confidence", jone),
   ("stopping_reason", .str "done"),
   ("requires_human_review", .bool false),
   ("analysis_notes", .str "notes"),
   ("processing_time_minutes", jz)]

/-- The minimal payload as JSON text. -/
def minimalDocText : String := String.mk (jprint (Json.obj minimalDocFields))

/-- The minimal payload with one top-level field removed, as JSON text. -/
def minimalDocTextWithout (f : String) : String :=
  String.mk (jprint (Json.obj (minimalDocFields.filter (fun p => p.1 ≠ f))))

/-! ## Helper definitions used by the statements and proofs -/

/-- Fold a list of pairs into a dict by repeated assignment (the effect of a
loop of `result[key] = value` statements). -/
def dictInsertAll {α : Type} (acc : List (String × α)) (ps : List (String × α)) :
    List (String × α) :=
  ps.foldl (fun m q => dictInsert m q.1 q.2) acc

/-- The pipe-delimited segments after the `CEF:` marker at offset `i` of the
stripped input. -/
def cefParts (s : String) (i : Nat) : List (List Char) :=
  splitPipe ((pyStrip s.data).drop (i + 4))

/-- Pure normalisation of path segments (no symlinks): `.` and empty
segments vanish, `..` pops. This is what `resolveSegs` computes on an empty
symlink table. -/
def normSegs (acc : List String) : List String → List String
  | [] => acc
  | s :: rest =>
    if s = "" ∨ s = "." then normSegs acc rest
    else if s = ".." then normSegs acc.dropLast rest
    else normSegs (acc ++ [s]) rest

/-- The initial tokeniser state of `_parse_cef_extension`. -/
def extInit : ExtState := ⟨[], none, [], false⟩

deriving instance DecidableEq for Except

/-! ## Shared lemmas about the dict and substring helpers -/

theorem dictLookup_insert_self {α : Type} (m : List (String × α)) (k : String) (v : α) :
    dictLookup (dictInsert m k v) k = some v := by
  induction m with
  | nil => simp [dictInsert, dictLookup]
  | cons hd t ih =>
    obtain ⟨k', v'⟩ := hd
    by_cases hk : k' = k
    · simp [dictInsert, hk, dictLookup]
    · simp [dictInsert, hk, dictLookup, ih]

theorem dictLookup_insert_ne {α : Type} (m : List (String × α)) (k' k : String) (v : α)
    (h : k' ≠ k) : dictLookup (dictInsert m k' v) k = dictLookup m k := by
  induction m with
  | nil => simp [dictInsert, dictLookup, h]
  | cons hd t ih =>
    obtain ⟨a, b⟩ := hd
    by_cases ha : a = k'
    · subst ha
      simp [dictInsert, dictLookup, h]
    · simp [dictInsert, ha, dictLookup, ih]

theorem dictInsertAll_lookup_notmem {α : Type} (ps : List (String × α))
    (acc : List (String × α)) (k : String) (h : k ∉ ps.map Prod.fst) :
    dictLookup (dictInsertAll acc ps) k = dictLookup acc k := by
  induction ps generalizing acc with
  | nil => rfl
  | cons q t ih =>
    simp only [List.map_cons, List.mem_cons, not_or] at h
    have step : dictInsertAll acc (q :: t) = dictInsertAll (dictInsert acc q.1 q.2) t := rfl
    rw [step, ih _ h.2, dictLookup_insert_ne _ _ _ _ (fun e => h.1 e.symm)]

theorem dictInsert_head_key {α : Type} (v : α) (tl : List (String × α)) (k0 k : String)
    (x : α) : ∃ w tl', dictInsert ((k0, v) :: tl) k x = (k0, w) :: tl' := by
  by_cases hk : k0 = k
  · subst hk
    exact ⟨x, tl, by simp [dictInsert]⟩
  · exact ⟨v, dictInsert tl k x, by simp [dictInsert, hk]⟩

theorem isPrefixOf_append_self (a b : List Char) : a.isPrefixOf (a ++ b) = true :=
  List.isPrefixOf_iff_prefix.mpr (List.prefix_append a b)

theorem isSubstr_append_left (h : List Char) :
    ∀ n t : List Char, isSubstr n t = true → isSubstr n (h ++ t) = true := by
  induction h with
  | nil => intro n t ht; simpa using ht
  | cons c cs ih =>
    intro n t ht
    show isSubstr n (c :: (cs ++ t)) = true
    simp only [isSubstr, Bool.or_eq_true]
    exact Or.inr (ih n t ht)

theorem isSubstr_self_append (a b : List Char) : isSubstr a (a ++ b) = true := by
  cases a with
  | nil => cases b <;> simp [isSubstr, List.isPrefixOf]
  | cons c cs =>
    show isSubstr (c :: cs) (c :: (cs ++ b)) = true
    simp only [isSubstr, Bool.or_eq_true]
    exact Or.inl (isPrefixOf_append_self (c :: cs) b)

theorem mem_joinSp_substr (a : String) (args : List String) (h : a ∈ args) :
    isSubstr a.data (joinSp args) = true := by
  induction args with
  | nil => cases h
  | cons hd t ih =>
    rcases List.mem_cons.mp h with rfl | hmem
    · cases t with
      | nil => simpa [joinSp] using isSubstr_self_append a.data []
      | cons b bs => exact isSubstr_self_append a.data (' ' :: joinSp (b :: bs))
    · cases t with
      | nil => cases hmem
      | cons b bs =>
        have hsub := ih hmem
        have : joinSp (hd :: b :: bs) = (hd.data ++ [' ']) ++ joinSp (b :: bs) := by
          simp [joinSp]
        rw [this]
        exact isSubstr_append_left _ _ _ hsub

/-! ## C2: run_safe_command rejections -/

/-- C2: `run_safe_command` rejects, before any spawn, every `python`
invocation whose argument list contains `-c` (with the forbidden-pattern
error naming `-c`), and rejects every command type outside the four fixed
keys with the unknown-type error, independent of arguments. -/
theorem cmdAllowlist_rejections :
    (∀ (pathOk : String → Bool) (dflt : String) (args : List String)
        (wd : Option String), "-c" ∈ args →
      runSafeCommandValidate pathOk dflt "python" args wd =
        .error (.forbiddenPattern "-c" "python")) ∧
    (∀ (pathOk : String → Bool) (dflt : String) (ct : String)
        (args : List String) (wd : Option String),
      ct ∉ ["pytest", "python", "black", "ruff"] →
      runSafeCommandValidate pathOk dflt ct args wd = .error .unknownType) := by
  constructor
  · intro pathOk dflt args wd hmem
    have hlook : dictLookup ALLOWED_COMMANDS "python" = some pythonInfo := rfl
    have hsub : isSubstr "-c".data (joinSp args) = true := mem_joinSp_substr _ _ hmem
    have hfind :
        List.find? (fun q => isSubstr q.data (joinSp args)) pythonInfo.forbidden_patterns =
          some "-c" :=
      List.find?_cons_of_pos _ hsub
    simp only [runSafeCommandValidate, hlook, validateCommandArgs, hfind]
  · intro pathOk dflt ct args wd h
    simp only [List.mem_cons, List.not_mem_nil, or_false, not_or] at h
    obtain ⟨h1, h2, h3, h4⟩ := h
    simp [runSafeCommandValidate, ALLOWED_COMMANDS, dictLookup,
      Ne.symm h1, Ne.symm h2, Ne.symm h3, Ne.symm h4]

/-- Witness for C2 at concrete inputs. -/
theorem cmdAllowlist_rejections_wit :
    runSafeCommandValidate (fun _ => true) "/" "python" ["-c", "print(1)"] none =
      .error (.forbiddenPattern "-c" "python") ∧
    runSafeCommandValidate (fun _ => true) "/" "rm" ["-rf", "/"] none =
      .error .unknownType ∧
    runSafeCommandValidate (fun _ => true) "/" "curl" [] none = .error .unknownType ∧
    runSafeCommandValidate (fun _ => true) "/" "sudo" ["ls"] none = .error .unknownType :=
  ⟨cmdAllowlist_rejections.1 _ _ _ _ (by simp),
   cmdAllowlist_rejections.2 _ _ _ _ _ (by decide),
   cmdAllowlist_rejections.2 _ _ _ _ _ (by decide),
   cmdAllowlist_rejections.2 _ _ _ _ _ (by decide)⟩

/-! ## C10: the forbidden-pattern check is a substring test on joined args -/

/-- C10: for the `python` command type the forbidden-pattern check is a
substring test on the space-joined argument string, not an equality test
against individual arguments: any argument list whose join contains one of
the forbidden strings is rejected with a forbidden-pattern error, and in
particular a lone file name containing `-c` is rejected although no
argument equals `-c`. -/
theorem forbidden_substring_check :
    (∀ (pathOk : String → Bool) (dflt : String) (args : List String)
        (wd : Option String) (p : String),
      p ∈ ["-c", "exec", "eval", "os.system", "subprocess"] →
      isSubstr p.data (joinSp args) = true →
      ∃ q ∈ pythonInfo.forbidden_patterns,
        runSafeCommandValidate pathOk dflt "python" args wd =
          .error (.forbiddenPattern q "python")) ∧
    (∀ (pathOk : String → Bool) (dflt : String) (wd : Option String),
      runSafeCommandValidate pathOk dflt "python" ["my-code.py"] wd =
        .error (.forbiddenPattern "-c" "python") ∧ "-c" ∉ ["my-code.py"]) := by
  constructor
  · intro pathOk dflt args wd p hp hsub
    have hp6 : p ∈ pythonInfo.forbidden_patterns := by
      simp only [List.mem_cons, List.not_mem_nil, or_false] at hp
      rcases hp with rfl | rfl | rfl | rfl | rfl <;> simp [pythonInfo]
    have hsome :
        (List.find? (fun q => isSubstr q.data (joinSp args))
          pythonInfo.forbidden_patterns).isSome = true :=
      List.find?_isSome.mpr ⟨p, hp6, hsub⟩
    obtain ⟨q, hq⟩ := Option.isSome_iff_exists.mp hsome
    refine ⟨q, List.mem_of_find?_eq_some hq, ?_⟩
    have hlook : dictLookup ALLOWED_COMMANDS "python" = some pythonInfo := rfl
    simp only [runSafeCommandValidate, hlook, validateCommandArgs, hq]
  · intro pathOk dflt wd
    constructor
    · have hlook : dictLookup ALLOWED_COMMANDS "python" = some pythonInfo := rfl
      have hfind :
          List.find? (fun q => isSubstr q.data (joinSp ["my-code.py"]))
            pythonInfo.forbidden_patterns = some "-c" :=
        List.find?_cons_of_pos _ (by decide)
      simp only [runSafeCommandValidate, hlook, validateCommandArgs, hfind]
    · decide

/-- Witness for C10 at a concrete input. -/
theorem forbidden_substring_check_wit :
    ∃ q ∈ pythonInfo.forbidden_patterns,
      runSafeCommandValidate (fun _ => true) "/" "python" ["run", "subprocess_test"] none =
        .error (.forbiddenPattern q "python") :=
  forbidden_substring_check.1 _ _ _ _ "subprocess" (by simp) (by decide)

/-! ## C8: SchemaDocument required fields -/

/-- C8: `parse_and_validate_schema_document` rejects a document missing any
one of the eight claimed required top-level fields, each taken individually,
with a validation error naming the missing field, and accepts the minimal
document that supplies all required fields with `log_types` empty. -/
theorem schema_required_fields :
    parseAndValidateSchemaDocument (minimalDocTextWithout "total_logs_analyzed") =
      .error (.missing "total_logs_analyzed") ∧
    parseAndValidateSchemaDocument (minimalDocTextWithout "analysis_batches_processed") =
      .error (.missing "analysis_batches_processed") ∧
    parseAndValidateSchemaDocument (minimalDocTextWithout "log_types") =
      .error (.missing "log_types") ∧
    parseAndValidateSchemaDocument (minimalDocTextWithout "analysis_confidence") =
      .error (.missing "analysis_confidence") ∧
    parseAndValidateSchemaDocument (minimalDocTextWithout "stopping_reason") =
      .error (.missing "stopping_reason") ∧
    parseAndValidateSchemaDocument (minimalDocTextWithout "requires_human_review") =
      .error (.missing "requires_human_review") ∧
    parseAndValidateSchemaDocument (minimalDocTextWithout "analysis_notes") =
      .error (.missing "analysis_notes") ∧
    parseAndValidateSchemaDocument (minimalDocTextWithout "processing_time_minutes") =
      .error (.missing "processing_time_minutes") ∧
    (parseAndValidateSchemaDocument minimalDocText).isOk = true :=
  ⟨rfl, rfl, rfl, rfl, rfl, rfl, rfl, rfl, rfl⟩

/-! ## C3: the Fortinet CEF example -/

/-- C3: `cef_parser` on the documented Fortinet example yields the stated
syslog prefix, the seven header fields in order, and the two-entry
extension. -/
theorem cef_fortinet_example :
    cefParse "<189>Sep 21 05:44:42 Host CEF:0|Fortinet|Fortigate|v7.0|001|traffic|3|src=10.1.1.1 dst=8.8.8.8" =
      .ok { syslogPart := "<189>Sep 21 05:44:42 Host"
            cef_header :=
              [("version", "0"), ("device_vendor", "Fortinet"),
               ("device_product", "Fortigate"), ("device_version", "v7.0"),
               ("signature_id", "001"), ("name", "traffic"), ("severity", "3")]
            extension := [("src", "10.1.1.1"), ("dst", "8.8.8.8")] } := rfl

/-! ## C7: handle lifecycle -/

/-- C7: on a freshly opened handle over a five-line file, three successive
two-line reads return 2, 2 and 1 lines with `lines_read` accumulating 2, 4,
5; reading after close fails with the invalid-or-expired-handle error; and a
second close of the same id fails (close is not idempotent). -/
theorem handle_lifecycle (lines : List String) (p hid : String) (h5 : lines.length = 5) :
    readJsonl (openJsonl [] p lines hid) hid 2 =
      .ok (lines.take 2, [(hid, ⟨hid, p, 2, lines, 2⟩)]) ∧
    (lines.take 2).length = 2 ∧
    readJsonl [(hid, ⟨hid, p, 2, lines, 2⟩)] hid 2 =
      .ok ((lines.drop 2).take 2, [(hid, ⟨hid, p, 4, lines, 4⟩)]) ∧
    ((lines.drop 2).take 2).length = 2 ∧
    readJsonl [(hid, ⟨hid, p, 4, lines, 4⟩)] hid 2 =
      .ok (lines.drop 4, [(hid, ⟨hid, p, 5, lines, 5⟩)]) ∧
    (lines.drop 4).length = 1 ∧
    closeJsonl [(hid, ⟨hid, p, 5, lines, 5⟩)] hid = .ok [] ∧
    readJsonl [] hid 2 = .error .invalidHandle ∧
    closeJsonl [] hid = .error (.closeFailed hid) := by
  have ht2 : (lines.take 2).length = 2 := by
    rw [List.length_take, h5]; decide
  have hd2 : ((lines.drop 2).take 2).length = 2 := by
    rw [List.length_take, List.length_drop, h5]; decide
  have hd4 : (lines.drop 4).length = 1 := by
    rw [List.length_drop, h5]
  have htk : (lines.drop 4).take 2 = lines.drop 4 :=
    List.take_of_length_le (by rw [hd4]; omega)
  refine ⟨?_, ht2, ?_, hd2, ?_, hd4, ?_, ?_, ?_⟩
  · simp [readJsonl, openJsonl, dictInsert, dictLookup, ht2]
  · simp [readJsonl, dictInsert, dictLookup, hd2]
  · simp [readJsonl, dictInsert, dictLookup, htk, hd4]
  · simp [closeJsonl, dictLookup, dictRemove]
  · simp [readJsonl, dictLookup]
  · simp [closeJsonl, dictLookup]

/-- Witness for C7 at a concrete five-line file. -/
theorem handle_lifecycle_wit :
    readJsonl (openJsonl [] "/x/a.jsonl" ["l1", "l2", "l3", "l4", "l5"] "h") "h" 2 =
      .ok (["l1", "l2"],
        [("h", ⟨"h", "/x/a.jsonl", 2, ["l1", "l2", "l3", "l4", "l5"], 2⟩)]) ∧
    (["l1", "l2"] : List String).length = 2 ∧
    readJsonl [("h", ⟨"h", "/x/a.jsonl", 2, ["l1", "l2", "l3", "l4", "l5"], 2⟩)] "h" 2 =
      .ok (["l3", "l4"],
        [("h", ⟨"h", "/x/a.jsonl", 4, ["l1", "l2", "l3", "l4", "l5"], 4⟩)]) ∧
    (["l3", "l4"] : List String).length = 2 ∧
    readJsonl [("h", ⟨"h", "/x/a.jsonl", 4, ["l1", "l2", "l3", "l4", "l5"], 4⟩)] "h" 2 =
      .ok (["l5"],
        [("h", ⟨"h", "/x/a.jsonl", 5, ["l1", "l2", "l3", "l4", "l5"], 5⟩)]) ∧
    (["l5"] : List String).length = 1 ∧
    closeJsonl [("h", ⟨"h", "/x/a.jsonl", 5, ["l1", "l2", "l3", "l4", "l5"], 5⟩)] "h" =
      .ok [] ∧
    readJsonl [] "h" 2 = .error .invalidHandle ∧
    closeJsonl [] "h" = .error (.closeFailed "h") :=
  handle_lifecycle ["l1", "l2", "l3", "l4", "l5"] "/x/a.jsonl" "h" rfl

/-! ## C4: CEF segment-count rule -/

/-- C4: when the portion after the `CEF:` marker splits into exactly 7
pipe-delimited segments, `cef_parser` succeeds with the 7 header entries in
fixed order and an empty extension; with more than 8 segments it raises the
too-many-pipes error; with fewer than 7 it raises the at-least-7-fields
error. -/
theorem cef_segment_rule (s : String) (i : Nat)
    (h1 : pyStrip s.data ≠ [])
    (h2 : findSub ['C', 'E', 'F', ':'] (pyStrip s.data) = some i) :
    ((cefParts s i).length = 7 →
      cefParse s = .ok
        { syslogPart := String.mk (pyStrip ((pyStrip s.data).take i))
          cef_header :=
            [("version", String.mk (seg (cefParts s i) 0)),
             ("device_vendor", String.mk (seg (cefParts s i) 1)),
             ("device_product", String.mk (seg (cefParts s i) 2)),
             ("device_version", String.mk (seg (cefParts s i) 3)),
             ("signature_id", String.mk (seg (cefParts s i) 4)),
             ("name", String.mk (seg (cefParts s i) 5)),
             ("severity", String.mk (seg (cefParts s i) 6))]
          extension := [] }) ∧
    ((cefParts s i).length > 8 →
      cefParse s = .error (.tooManyPipes (cefParts s i).length)) ∧
    ((cefParts s i).length < 7 →
      cefParse s = .error (.tooFewFields (cefParts s i).length)) := by
  have hp : splitPipe ((pyStrip s.data).drop (i + 4)) = cefParts s i := rfl
  refine ⟨?_, ?_, ?_⟩ <;> intro hlen
  · have hlt : ¬((cefParts s i).length < 7) := by omega
    have hgt : ¬((cefParts s i).length > 8) := by omega
    have h7 : ¬((cefParts s i).length > 7) := by omega
    simp [cefParse, if_neg h1, h2, hp, hlt, hgt, h7, parseCefExtension]
  · have hlt : ¬((cefParts s i).length < 7) := by omega
    simp [cefParse, if_neg h1, h2, hp, hlt, hlen]
  · simp [cefParse, if_neg h1, h2, hp, hlen]

/-- Witness for C4 at three concrete inputs. -/
theorem cef_segment_rule_wit :
    cefParse "CEF:a|b|c|d|e|f|g" = .ok
      { syslogPart := ""
        cef_header :=
          [("version", "a"), ("device_vendor", "b"), ("device_product", "c"),
           ("device_version", "d"), ("signature_id", "e"), ("name", "f"),
           ("severity", "g")]
        extension := [] } ∧
    cefParse "CEF:0|v|p|vv|id|n|sev|k=v|extra" = .error (.tooManyPipes 9) ∧
    cefParse "CEF:a|b|c" = .error (.tooFewFields 3) :=
  ⟨(cef_segment_rule "CEF:a|b|c|d|e|f|g" 0 (by decide) (by decide)).1 (by decide),
   (cef_segment_rule "CEF:0|v|p|vv|id|n|sev|k=v|extra" 0 (by decide) (by decide)).2.1
     (by decide),
   (cef_segment_rule "CEF:a|b|c" 0 (by decide) (by decide)).2.2 (by decide)⟩

/-! ## C5: end-of-input flush in the CEF extension tokeniser -/

/-- C5 counterexample: a trailing `key=` with empty accumulated value is
dropped by the post-loop flush (`if current_key and current_value:` is falsy
on an empty buffer), so the key does not appear in the result, contradicting
the claim's parenthetical that the empty-value case is flushed too. -/
theorem cef_ext_trailing_empty_value_dropped :
    parseCefExtension "c=".data = [] ∧
    dictLookup (parseCefExtension "c=".data) "c" = none := ⟨rfl, rfl⟩

/-- C5 amended: if, at end of input, the tokeniser loop has recognised a key
(an unescaped `=` was consumed) and has accumulated a nonempty value for it,
the pair is flushed into the result mapping with exactly the accumulated
value; an in-progress pair whose accumulated value is empty is discarded. -/
theorem cef_ext_flush_nonempty (s : List Char) (k v : List Char)
    (hkey : (runExt s.length s extInit).currentKey = some k)
    (hval : (runExt s.length s extInit).currentValue = v)
    (hk : k ≠ []) (hv : v ≠ [])
    (hs : ¬(s = [] ∨ pyStrip s = [])) :
    parseCefExtension s =
      dictInsert (runExt s.length s extInit).ext (String.mk k) (String.mk v) ∧
    dictLookup (parseCefExtension s) (String.mk k) = some (String.mk v) := by
  simp only [extInit] at hkey hval
  have hmain : parseCefExtension s =
      dictInsert (runExt s.length s extInit).ext (String.mk k) (String.mk v) := by
    simp only [parseCefExtension, if_neg hs, extFinalize, extInit, hkey, hval]
    rw [if_pos (And.intro hk hv)]
  exact ⟨hmain, by rw [hmain]; exact dictLookup_insert_self _ _ _⟩

/-- Witness for C5 at a concrete input. -/
theorem cef_ext_flush_nonempty_wit :
    parseCefExtension "a=b".data = [("a", "b")] ∧
    dictLookup (parseCefExtension "a=b".data) "a" = some "b" :=
  cef_ext_flush_nonempty "a=b".data ['a'] ['b'] rfl rfl
    (by decide) (by decide) (by decide)

/-! ## C6: the syslog `prefix` invariant -/

theorem dictInsertAll_head_key {α : Type} (ps : List (String × α)) :
    ∀ (k0 : String) (v : α) (tl : List (String × α)),
      ∃ w tl', dictInsertAll ((k0, v) :: tl) ps = (k0, w) :: tl' := by
  induction ps with
  | nil => intro k0 v tl; exact ⟨v, tl, rfl⟩
  | cons q t ih =>
    intro k0 v tl
    have step : dictInsertAll ((k0, v) :: tl) (q :: t) =
        dictInsertAll (dictInsert ((k0, v) :: tl) q.1 q.2) t := rfl
    obtain ⟨w0, tl0, h0⟩ := dictInsert_head_key v tl k0 q.1 q.2
    rw [step, h0]
    exact ih k0 w0 tl0

theorem kvLoop_eq_kvPairs :
    ∀ (fuel : Nat) (l : List Char) (acc : List (String × String)),
      kvLoop fuel l acc = (kvPairs fuel l).map (fun ps => dictInsertAll acc ps) := by
  intro fuel
  induction fuel with
  | zero => intro l acc; rfl
  | succ f ih =>
    intro l acc
    rw [kvLoop, kvPairs]
    by_cases hl : l.dropWhile (· = ' ') = []
    · simp [hl, Except.map, dictInsertAll]
    · rw [if_neg hl, if_neg hl]
      cases hk : parseKvKey (l.dropWhile (· = ' ')) with
      | error e => rfl
      | ok kr =>
        obtain ⟨k, rest⟩ := kr
        dsimp only
        cases hv : parseKvValue rest k with
        | error e => rfl
        | ok vr =>
          obtain ⟨v, rest'⟩ := vr
          dsimp only
          rw [ih]
          cases hp : kvPairs f rest' with
          | error e => rfl
          | ok ps => simp [Except.map, dictInsertAll]

/-- C6 counterexample: `syslog_kv_parser` succeeds on inputs whose priority
token contains no digits, and a later pair whose key is literally `prefix`
overwrites the reserved entry, so the returned `prefix` value is neither of
the form `<digits>` nor the delimited span of the input. -/
theorem syslog_pri_counterexample :
    syslogKvParse "<ab>prefix=x" = .ok [("prefix", "x")] ∧
    syslogKvParse "<ab>x=y" = .ok [("prefix", "<ab>"), ("x", "y")] ∧
    ("x" : String) ≠ "<ab>" ∧
    (∀ c ∈ ("<ab>" : String).data, ¬c.isDigit = true) := by
  refine ⟨by decide, by decide, by decide, by decide⟩

/-- C6 amended: on every successful parse the reserved key `prefix` is the
first entry of the returned mapping; its value is the verbatim span of the
trimmed input from the leading `<` through the first `>` (arbitrary
characters, digits not enforced) unless a parsed pair reuses the key
`prefix`, in which case that pair's value overwrites it; and empty input,
input not starting with `<`, input without a closing `>`, and input with
nothing after the priority token each fail with a distinct named error. -/
theorem syslog_pri_invariant :
    (∀ (s : String) (m : List (String × String)),
      syslogKvParse s = .ok m → ∃ w tl, m = ("prefix", w) :: tl) ∧
    (∀ (s : String) (m : List (String × String)) (priTok kv : List Char)
        (ps : List (String × String)),
      extractPri (pyStrip s.data) = .ok (priTok, kv) →
      syslogKvParse s = .ok m →
      kvPairs (kv.length + 1) kv = .ok ps →
      "prefix" ∉ ps.map Prod.fst →
      dictLookup m "prefix" = some (String.mk priTok)) ∧
    (∀ (t priTok kv : List Char),
      extractPri t = .ok (priTok, kv) →
      ∃ (j : Nat) (rest0 : List Char),
        t = '<' :: rest0 ∧ idxOf? '>' t = some j ∧ priTok = t.take (j + 1)) ∧
    (∀ s : String, pyStrip s.data = [] → syslogKvParse s = .error .invalidInput) ∧
    (∀ (s : String) (c : Char) (r : List Char),
      pyStrip s.data = c :: r → c ≠ '<' → syslogKvParse s = .error .noPriStart) ∧
    (∀ (s : String) (r : List Char),
      pyStrip s.data = '<' :: r → idxOf? '>' (pyStrip s.data) = none →
      syslogKvParse s = .error .noPriClose) ∧
    (∀ (s : String) (r : List Char) (j : Nat),
      pyStrip s.data = '<' :: r → idxOf? '>' (pyStrip s.data) = some j →
      pyStrip ((pyStrip s.data).drop (j + 1)) = [] →
      syslogKvParse s = .error .noPairs) := by
  refine ⟨?_, ?_, ?_, ?_, ?_, ?_, ?_⟩
  · intro s m h
    simp only [syslogKvParse] at h
    by_cases ht : pyStrip s.data = []
    · simp [ht] at h
    · rw [if_neg ht] at h
      cases he : extractPri (pyStrip s.data) with
      | error e => rw [he] at h; cases h
      | ok pk =>
        obtain ⟨priTok, kv⟩ := pk
        rw [he] at h
        dsimp only at h
        rw [kvLoop_eq_kvPairs] at h
        cases hp : kvPairs (kv.length + 1) kv with
        | error e => rw [hp] at h; cases h
        | ok ps =>
          rw [hp] at h
          simp only [Except.map] at h
          cases h
          exact dictInsertAll_head_key ps "prefix" (String.mk priTok) []
  · intro s m priTok kv ps he h hp hnot
    simp only [syslogKvParse] at h
    by_cases ht : pyStrip s.data = []
    · simp [ht] at h
    · rw [if_neg ht, he] at h
      dsimp only at h
      rw [kvLoop_eq_kvPairs, hp] at h
      simp only [Except.map] at h
      cases h
      rw [dictInsertAll_lookup_notmem ps _ _ hnot]
      simp [dictLookup]
  · intro t priTok kv he
    cases t with
    | nil => cases he
    | cons c rest =>
      simp only [extractPri] at he
      by_cases hc : c = '<'
      · rw [if_pos hc] at he
        split at he
        · cases he
        · rename_i j hj
          split at he
          · cases he
          · cases he
            exact ⟨j, rest, by rw [hc], hj, rfl⟩
      · rw [if_neg hc] at he; cases he
  · intro s h
    simp [syslogKvParse, h]
  · intro s c r ht hc
    simp only [syslogKvParse, ht]
    have hne : ¬(c :: r = ([] : List Char)) := by simp
    rw [if_neg hne]
    simp [extractPri, hc]
  · intro s r ht hj
    have hne : ¬(pyStrip s.data = []) := by rw [ht]; simp
    simp only [syslogKvParse]
    rw [if_neg hne, ht]
    rw [ht] at hj
    simp [extractPri, hj]
  · intro s r j ht hj hkv
    have hne : ¬(pyStrip s.data = []) := by rw [ht]; simp
    simp only [syslogKvParse]
    rw [if_neg hne, ht]
    rw [ht] at hj hkv
    have hkv2 : pyStrip (List.drop j r) = [] := hkv
    simp [extractPri, hj, hkv2]

/-- Witness for C6 at concrete inputs. -/
theorem syslog_pri_invariant_wit :
    (∃ w tl, ([("prefix", "<1>"), ("a", "b")] : List (String × String)) =
      ("prefix", w) :: tl) ∧
    dictLookup [("prefix", "<1>"), ("a", "b")] "prefix" = some (String.mk "<1>".data) ∧
    syslogKvParse "" = .error .invalidInput ∧
    syslogKvParse "x=y" = .error .noPriStart ∧
    syslogKvParse "<189 x=y" = .error .noPriClose ∧
    syslogKvParse "<189>   " = .error .noPairs :=
  ⟨syslog_pri_invariant.1 "<1>a=b" _ rfl,
   syslog_pri_invariant.2.1 "<1>a=b" _ "<1>".data "a=b".data [("a", "b")]
     rfl rfl rfl (by decide),
   syslog_pri_invariant.2.2.2.1 "" rfl,
   syslog_pri_invariant.2.2.2.2.1 "x=y" 'x' "=y".data rfl (by decide),
   syslog_pri_invariant.2.2.2.2.2.1 "<189 x=y" "189 x=y".data rfl rfl,
   syslog_pri_invariant.2.2.2.2.2.2 "<189>   " "189>".data 4 rfl rfl rfl⟩

/-! ## C1: PathGuard containment -/

theorem resolveSegs_nil :
    ∀ (fuel : Nat) (acc rest : List String), rest.length < fuel →
      resolveSegs [] fuel acc rest = some (normSegs acc rest) := by
  intro fuel
  induction fuel with
  | zero => intro acc rest h; omega
  | succ f ih =>
    intro acc rest h
    cases rest with
    | nil => rfl
    | cons sg rest' =>
      have h' : rest'.length < f := by
        simp only [List.length_cons] at h
        omega
      by_cases h1 : sg = "" ∨ sg = "."
      · rw [resolveSegs, normSegs]
        rw [if_pos h1, if_pos h1]
        exact ih acc rest' h'
      · by_cases h2 : sg = ".."
        · rw [resolveSegs, normSegs]
          rw [if_neg h1, if_neg h1, if_pos h2, if_pos h2]
          exact ih acc.dropLast rest' h'
        · rw [resolveSegs, normSegs]
          rw [if_neg h1, if_neg h1, if_neg h2, if_neg h2]
          show (match fsLookup [] (acc ++ [sg]) with
            | some target => resolveSegs [] f [] (target ++ rest')
            | none => resolveSegs [] f (acc ++ [sg]) rest') = _
          rw [show fsLookup [] (acc ++ [sg]) = none from rfl]
          exact ih (acc ++ [sg]) rest' h'

theorem resolvePath_nil (cwd : List String) (p : String) :
    resolvePath [] cwd p = some (normSegs [] (pathSegsOf cwd p)) := by
  have hf : resolveFuel [] (pathSegsOf cwd p).length = (pathSegsOf cwd p).length + 1 := by
    simp [resolveFuel]
  simp only [resolvePath, hf]
  exact resolveSegs_nil _ [] _ (by omega)

theorem normSegs_replicate_dotdot :
    ∀ (k : Nat) (acc rest : List String),
      normSegs acc (List.replicate k ".." ++ rest) =
        normSegs (List.dropLast^[k] acc) rest := by
  intro k
  induction k with
  | zero => intro acc rest; rfl
  | succ n ih =>
    intro acc rest
    rw [List.replicate_succ, List.cons_append, normSegs]
    rw [if_neg (by decide), if_pos rfl]
    rw [ih acc.dropLast rest, Function.iterate_succ_apply]

theorem dropLast_iterate_nil :
    ∀ (k : Nat) (l : List String), l.length ≤ k → List.dropLast^[k] l = [] := by
  intro k
  induction k with
  | zero =>
    intro l h
    have : l = [] := List.eq_nil_of_length_eq_zero (by omega)
    simpa using this
  | succ n ih =>
    intro l h
    rw [Function.iterate_succ_apply]
    exact ih l.dropLast (by rw [List.length_dropLast]; omega)

/-- C1: `is_path_allowed` answers true exactly when the resolved path equals
or descends from some resolvable allowed root (symlinks followed, `..`
eliminated); consequently any `..` traversal below a root that escapes every
root answers false for every traversal depth, and a symlink inside an
allowed root whose resolved target lies outside every root answers false. -/
theorem pathGuard_containment :
    (∀ (fs : SymFS) (cwd : List String) (p : String) (R : List String)
        (rp : List String),
      resolvePath fs cwd p = some rp →
      (isPathAllowed fs cwd p R = .ok true ↔
        ∃ r ∈ R, ∃ rd, resolvePath fs cwd r = some rd ∧ rd.isPrefixOf rp = true)) ∧
    (∀ (fs : SymFS) (cwd : List String) (p : String) (R : List String)
        (rp : List String),
      resolvePath fs cwd p = some rp →
      (∀ r ∈ R, ∀ rd, resolvePath fs cwd r = some rd → rd.isPrefixOf rp = false) →
      isPathAllowed fs cwd p R = .ok false) ∧
    (∀ (p : String) (k : Nat), 2 ≤ k →
      pathSegsOf [] p = ["", "a", "b"] ++ List.replicate k ".." ++ ["secret"] →
      isPathAllowed [] [] p ["/a/b"] = .ok false) ∧
    isPathAllowed [(["a", "b", "s"], ["x"])] [] "/a/b/s" ["/a/b"] = .ok false := by
  have hiff : ∀ (fs : SymFS) (cwd : List String) (p : String) (R : List String)
      (rp : List String),
      resolvePath fs cwd p = some rp →
      (isPathAllowed fs cwd p R = .ok true ↔
        ∃ r ∈ R, ∃ rd, resolvePath fs cwd r = some rd ∧ rd.isPrefixOf rp = true) := by
    intro fs cwd p R rp h
    simp only [isPathAllowed, h]
    constructor
    · intro hok
      have hany : (R.any fun d =>
          match resolvePath fs cwd d with
          | some rd => rd.isPrefixOf rp
          | none => false) = true := by
        cases hany : (R.any fun d =>
            match resolvePath fs cwd d with
            | some rd => rd.isPrefixOf rp
            | none => false)
        · rw [hany] at hok; cases hok
        · rfl
      obtain ⟨r, hr, hfr⟩ := List.any_eq_true.mp hany
      cases hres : resolvePath fs cwd r with
      | none => rw [hres] at hfr; cases hfr
      | some rd =>
        rw [hres] at hfr
        exact ⟨r, hr, rd, hres, hfr⟩
    · rintro ⟨r, hr, rd, hres, hpre⟩
      have hany : (R.any fun d =>
          match resolvePath fs cwd d with
          | some rd => rd.isPrefixOf rp
          | none => false) = true :=
        List.any_eq_true.mpr ⟨r, hr, by rw [hres]; exact hpre⟩
      rw [hany]
  refine ⟨hiff, ?_, ?_, ?_⟩
  · intro fs cwd p R rp h hall
    simp only [isPathAllowed, h]
    have hany : (R.any fun d =>
        match resolvePath fs cwd d with
        | some rd => rd.isPrefixOf rp
        | none => false) = false := by
      rw [List.any_eq_false]
      intro r hr
      cases hres : resolvePath fs cwd r with
      | none => simp
      | some rd => simp [hall r hr rd hres]
    rw [hany]
  · intro p k hk hsegs
    have hres : resolvePath [] [] p = some ["secret"] := by
      rw [resolvePath_nil, hsegs]
      have h1 : normSegs []
          ((["", "a", "b"] ++ List.replicate k ".." ++ ["secret"]) : List String) =
          normSegs ["a", "b"] (List.replicate k ".." ++ ["secret"]) := rfl
      rw [h1, normSegs_replicate_dotdot,
        dropLast_iterate_nil k ["a", "b"] (by simp; omega)]
      rfl
    simp only [isPathAllowed, hres]
    rfl
  · rfl

/-- Witness for C1: a contained path is accepted, an escaping `..`
traversal is rejected. -/
theorem pathGuard_containment_wit :
    isPathAllowed [] [] "/a/b/c" ["/a/b"] = .ok true ∧
    isPathAllowed [] [] "/a/b/../../secret" ["/a/b"] = .ok false :=
  ⟨(pathGuard_containment.1 [] [] "/a/b/c" ["/a/b"] ["a", "b", "c"] rfl).mpr
      ⟨"/a/b", by simp, ["a", "b"], rfl, by decide⟩,
   pathGuard_containment.2.2.1 "/a/b/../../secret" 2 (by omega) (by decide)⟩

/-! ## C9: round trip of the JSON decoding model -/

theorem digit_ne (c x : Char) (hx : x.isDigit = false) (hc : c.isDigit = true) :
    c ≠ x := by
  intro e
  subst e
  rw [hc] at hx
  cases hx

theorem digit_not_ws (c : Char) (hc : c.isDigit = true) : jWs c = false := by
  cases h : jWs c
  · rfl
  · exfalso
    simp only [jWs, Bool.or_eq_true, decide_eq_true_eq] at h
    rcases h with ((((rfl | rfl) | rfl) | rfl) | rfl) | rfl <;>
      exact absurd hc (by decide)
theorem digit_not_numCont_ne (c x : Char) (hx : numCont x = false) (hc : c.isDigit = true) :
    c ≠ x := by
  intro e
  subst e
  simp [numCont, hc] at hx

theorem takeWhile_append_not (p : Char → Bool) (a t : List Char)
    (ha : ∀ c ∈ a, p c = true)
    (ht : ∀ c cs, t = c :: cs → p c = false) :
    (a ++ t).takeWhile p = a ∧ (a ++ t).drop a.length = t := by
  refine ⟨?_, List.drop_left a t⟩
  induction a with
  | nil =>
    cases t with
    | nil => rfl
    | cons c cs => simp [List.takeWhile_cons, ht c cs rfl]
  | cons x xs ih =>
    have hx : p x = true := ha x (by simp)
    simp [List.takeWhile_cons, hx]
    exact ih (fun c hc => ha c (by simp [hc]))

theorem parseExpPart_print (ep : Option (Option Bool × List Char)) (rest : List Char)
    (hwf : ∀ sgn d, ep = some (sgn, d) → d ≠ [] ∧ ∀ c ∈ d, c.isDigit = true)
    (hrest : notNumCont rest = true) :
    parseExpPart (printExpPart ep ++ rest) = some (ep, rest) := by
  have hrest' : ∀ c cs, rest = c :: cs → numCont c = false := by
    intro c cs he
    rw [he] at hrest
    simpa [notNumCont] using hrest
  cases ep with
  | none =>
    show parseExpPart rest = some (none, rest)
    cases rest with
    | nil => rfl
    | cons c cs =>
      have hc := hrest' c cs rfl
      have h1 : ¬(c = 'e' ∨ c = 'E') := by
        rintro (rfl | rfl) <;> simp [numCont] at hc
      simp [parseExpPart, h1]
  | some se =>
    obtain ⟨sgn, d⟩ := se
    obtain ⟨hd_ne, hd_dig⟩ := hwf sgn d rfl
    have hrd : ∀ c cs, rest = c :: cs → Char.isDigit c = false := by
      intro c cs he
      have hn := hrest' c cs he
      cases h : c.isDigit
      · rfl
      · exfalso; simp [numCont, h] at hn
    obtain ⟨htw, hdr⟩ := takeWhile_append_not Char.isDigit d rest hd_dig hrd
    have hie : (d ++ rest).takeWhile Char.isDigit = d := htw
    have hde : d.isEmpty = false := by
      cases d with
      | nil => exact absurd rfl hd_ne
      | cons a b => rfl
    cases sgn with
    | none =>
      obtain ⟨d0, d1, rfl⟩ : ∃ d0 d1, d = d0 :: d1 := by
        cases d with
        | nil => exact absurd rfl hd_ne
        | cons d0 d1 => exact ⟨d0, d1, rfl⟩
      have hd0 : d0.isDigit = true := hd_dig d0 (by simp)
      have hne1 : d0 ≠ '-' := digit_ne d0 '-' (by decide) hd0
      have hne2 : d0 ≠ '+' := digit_ne d0 '+' (by decide) hd0
      have step1 : parseExpPart (printExpPart (some (none, d0 :: d1)) ++ rest) =
          (let p := parseExpSign (d0 :: (d1 ++ rest))
           let dd := p.2.takeWhile Char.isDigit
           if dd.isEmpty then none
           else some (some (p.1, dd), p.2.drop dd.length)) := rfl
      have hsign : parseExpSign (d0 :: (d1 ++ rest)) = (none, d0 :: (d1 ++ rest)) := by
        simp [parseExpSign, hne1, hne2]
      rw [step1, hsign]
      show (if ((d0 :: (d1 ++ rest)).takeWhile Char.isDigit).isEmpty then none
        else some (some ((none : Option Bool), (d0 :: (d1 ++ rest)).takeWhile Char.isDigit),
          (d0 :: (d1 ++ rest)).drop ((d0 :: (d1 ++ rest)).takeWhile Char.isDigit).length)) = _
      rw [show (d0 :: (d1 ++ rest)).takeWhile Char.isDigit = d0 :: d1 from hie]
      rw [show (d0 :: (d1 ++ rest)).drop (d0 :: d1).length = rest from hdr, hde]
      rfl
    | some b =>
      cases b with
      | true =>
        have step1 : parseExpPart (printExpPart (some (some true, d)) ++ rest) =
            (let dd := (d ++ rest).takeWhile Char.isDigit
             if dd.isEmpty then none
             else some (some (some true, dd), (d ++ rest).drop dd.length)) := rfl
        rw [step1]
        show (if ((d ++ rest).takeWhile Char.isDigit).isEmpty then none
          else some (some (some true, (d ++ rest).takeWhile Char.isDigit),
            (d ++ rest).drop ((d ++ rest).takeWhile Char.isDigit).length)) = _
        rw [hie, hdr, hde]
        rfl
      | false =>
        have step1 : parseExpPart (printExpPart (some (some false, d)) ++ rest) =
            (let dd := (d ++ rest).takeWhile Char.isDigit
             if dd.isEmpty then none
             else some (some (some false, dd), (d ++ rest).drop dd.length)) := rfl
        rw [step1]
        show (if ((d ++ rest).takeWhile Char.isDigit).isEmpty then none
          else some (some (some false, (d ++ rest).takeWhile Char.isDigit),
            (d ++ rest).drop ((d ++ rest).takeWhile Char.isDigit).length)) = _
        rw [hie, hdr, hde]
        rfl

theorem parseFracPart_print (fp : Option (List Char)) (t : List Char)
    (hwf : ∀ d, fp = some d → d ≠ [] ∧ ∀ c ∈ d, c.isDigit = true)
    (ht : ∀ c cs, t = c :: cs → c.isDigit = false ∧ c ≠ '.') :
    parseFracPart (printFracPart fp ++ t) = some (fp, t) := by
  cases fp with
  | none =>
    show parseFracPart t = some (none, t)
    cases t with
    | nil => rfl
    | cons c cs =>
      have hc := (ht c cs rfl).2
      simp [parseFracPart, hc]
  | some d =>
    obtain ⟨hne, hdig⟩ := hwf d rfl
    obtain ⟨htw, hdr⟩ :=
      takeWhile_append_not Char.isDigit d t hdig (fun c cs he => (ht c cs he).1)
    have hde : d.isEmpty = false := by
      cases d with
      | nil => exact absurd rfl hne
      | cons a b => rfl
    have step1 : parseFracPart (printFracPart (some d) ++ t) =
        (let dd := (d ++ t).takeWhile Char.isDigit
         if dd.isEmpty then none else some (some dd, (d ++ t).drop dd.length)) := rfl
    rw [step1]
    show (if ((d ++ t).takeWhile Char.isDigit).isEmpty then none
      else some (some ((d ++ t).takeWhile Char.isDigit),
        (d ++ t).drop ((d ++ t).takeWhile Char.isDigit).length)) = _
    rw [htw, hdr, hde]
    rfl

theorem parseNumLit_printNum (n : NumLit) (rest : List Char)
    (hwf : numWf n = true) (hrest : notNumCont rest = true) :
    parseNumLit (printNum n ++ rest) = some (n, rest) := by
  obtain ⟨neg, ip, fp, ep⟩ := n
  simp only [numWf, Bool.and_eq_true] at hwf
  obtain ⟨⟨⟨hip_ne, hip_dig⟩, hfp⟩, hep⟩ := hwf
  have hip_empty : ip.isEmpty = false := by
    revert hip_ne; cases ip.isEmpty <;> simp
  have hip_dig' : ∀ c ∈ ip, c.isDigit = true := List.all_eq_true.mp hip_dig
  have hfp' : ∀ d, fp = some d → d ≠ [] ∧ ∀ c ∈ d, c.isDigit = true := by
    intro d hd
    rw [hd] at hfp
    simp only [Bool.and_eq_true] at hfp
    refine ⟨?_, List.all_eq_true.mp hfp.2⟩
    have := hfp.1
    revert this
    cases d <;> simp
  have hep' : ∀ sgn d, ep = some (sgn, d) → d ≠ [] ∧ ∀ c ∈ d, c.isDigit = true := by
    intro sgn d hd
    rw [hd] at hep
    simp only [Bool.and_eq_true] at hep
    refine ⟨?_, List.all_eq_true.mp hep.2⟩
    have := hep.1
    revert this
    cases d <;> simp
  have hrest' : ∀ c cs, rest = c :: cs → numCont c = false := by
    intro c cs he
    rw [he] at hrest
    simpa [notNumCont] using hrest
  have hE_head : ∀ c cs,
      (printExpPart ep ++ rest) = c :: cs → c.isDigit = false ∧ c ≠ '.' := by
    intro c cs he
    cases ep with
    | some se =>
      obtain ⟨sgn, d⟩ := se
      have : c = 'e' := by
        simpa [printExpPart] using congrArg (fun l => l.headD ' ') he.symm
      subst this
      exact ⟨by decide, by decide⟩
    | none =>
      have hr := hrest' c cs (by simpa [printExpPart] using he)
      constructor
      · cases h : c.isDigit
        · rfl
        · exfalso; simp [numCont, h] at hr
      · intro e; subst e; simp [numCont] at hr
  have hFE_head : ∀ c cs,
      (printFracPart fp ++ (printExpPart ep ++ rest)) = c :: cs →
        c.isDigit = false := by
    intro c cs he
    cases fp with
    | some d =>
      have : c = '.' := by
        simpa [printFracPart] using congrArg (fun l => l.headD ' ') he.symm
      subst this
      decide
    | none =>
      exact (hE_head c cs (by simpa [printFracPart] using he)).1
  obtain ⟨htw, hdr⟩ :=
    takeWhile_append_not Char.isDigit ip (printFracPart fp ++ (printExpPart ep ++ rest))
      hip_dig' hFE_head
  have hfrac := parseFracPart_print fp (printExpPart ep ++ rest) hfp' hE_head
  have hexp := parseExpPart_print ep rest hep' hrest
  cases neg with
  | true =>
    have hshape : printNum ⟨true, ip, fp, ep⟩ ++ rest =
        '-' :: (ip ++ (printFracPart fp ++ (printExpPart ep ++ rest))) := by
      simp [printNum, List.append_assoc]
    rw [hshape]
    have step1 : parseNumLit
        ('-' :: (ip ++ (printFracPart fp ++ (printExpPart ep ++ rest)))) =
        (let l0 := ip ++ (printFracPart fp ++ (printExpPart ep ++ rest))
         let ip' := l0.takeWhile Char.isDigit
         if ip'.isEmpty then none
         else
           match parseFracPart (l0.drop ip'.length) with
           | none => none
           | some (fp', l2) =>
             match parseExpPart l2 with
             | none => none
             | some (ep', l3) => some (⟨true, ip', fp', ep'⟩, l3)) := rfl
    rw [step1]
    show (if ((ip ++ (printFracPart fp ++ (printExpPart ep ++ rest))).takeWhile
          Char.isDigit).isEmpty then none
      else
        match parseFracPart ((ip ++ (printFracPart fp ++ (printExpPart ep ++ rest))).drop
            ((ip ++ (printFracPart fp ++ (printExpPart ep ++ rest))).takeWhile
              Char.isDigit).length) with
        | none => none
        | some (fp', l2) =>
          match parseExpPart l2 with
          | none => none
          | some (ep', l3) =>
            some (NumLit.mk true
              ((ip ++ (printFracPart fp ++ (printExpPart ep ++ rest))).takeWhile
                Char.isDigit) fp' ep', l3)) = _
    rw [htw, hdr]
    simp [hip_empty, hfrac, hexp]
  | false =>
    obtain ⟨i0, i1, rfl⟩ : ∃ i0 i1, ip = i0 :: i1 := by
      cases ip with
      | nil => cases hip_empty
      | cons i0 i1 => exact ⟨i0, i1, rfl⟩
    have hi0 : i0.isDigit = true := hip_dig' i0 (by simp)
    have hne : i0 ≠ '-' := digit_ne i0 '-' (by decide) hi0
    have hshape : printNum ⟨false, i0 :: i1, fp, ep⟩ ++ rest =
        i0 :: (i1 ++ (printFracPart fp ++ (printExpPart ep ++ rest))) := by
      simp [printNum, List.append_assoc]
    rw [hshape]
    have step1 : parseNumLit
        (i0 :: (i1 ++ (printFracPart fp ++ (printExpPart ep ++ rest)))) =
        (let p : Bool × List Char :=
          if i0 = '-' then (true, i1 ++ (printFracPart fp ++ (printExpPart ep ++ rest)))
          else (false, i0 :: (i1 ++ (printFracPart fp ++ (printExpPart ep ++ rest))))
         let ip' := p.2.takeWhile Char.isDigit
         if ip'.isEmpty then none
         else
           match parseFracPart (p.2.drop ip'.length) with
           | none => none
           | some (fp', l2) =>
             match parseExpPart l2 with
             | none => none
             | some (ep', l3) => some (⟨p.1, ip', fp', ep'⟩, l3)) := rfl
    rw [step1, if_neg hne]
    show (if ((i0 :: (i1 ++ (printFracPart fp ++ (printExpPart ep ++ rest)))).takeWhile
          Char.isDigit).isEmpty then none
      else
        match parseFracPart ((i0 :: (i1 ++ (printFracPart fp ++ (printExpPart ep ++ rest)))).drop
            ((i0 :: (i1 ++ (printFracPart fp ++ (printExpPart ep ++ rest)))).takeWhile
              Char.isDigit).length) with
        | none => none
        | some (fp', l2) =>
          match parseExpPart l2 with
          | none => none
          | some (ep', l3) =>
            some (NumLit.mk false
              ((i0 :: (i1 ++ (printFracPart fp ++ (printExpPart ep ++ rest)))).takeWhile
                Char.isDigit) fp' ep', l3)) = _
    rw [show (i0 :: (i1 ++ (printFracPart fp ++ (printExpPart ep ++ rest)))).takeWhile
        Char.isDigit = i0 :: i1 from htw]
    rw [show (i0 :: (i1 ++ (printFracPart fp ++ (printExpPart ep ++ rest)))).drop
        (i0 :: i1).length = printFracPart fp ++ (printExpPart ep ++ rest) from hdr]
    simp [hfrac, hexp]

theorem contains_false_not_mem {α : Type} [BEq α] [LawfulBEq α] (l : List α) (a : α)
    (h : l.contains a = false) : a ∉ l := by
  intro hm
  have h' : List.elem a l = true := List.elem_iff.mpr hm
  have h2 : List.elem a l = false := h
  rw [h'] at h2
  cases h2

theorem not_mem_contains_false {α : Type} [BEq α] [LawfulBEq α] (l : List α) (a : α)
    (h : a ∉ l) : l.contains a = false := by
  cases hc : l.contains a
  · rfl
  · exact absurd (List.elem_iff.mp hc) h

theorem parseStringBody_escStr : ∀ (s rest : List Char),
    parseStringBody (escStr s ++ '"' :: rest) = some (s, rest) := by
  intro s
  induction s with
  | nil =>
    intro rest
    have h0 : escStr [] = [] := by unfold escStr; rfl
    rw [h0, List.nil_append, parseStringBody.eq_def]
    rfl
  | cons c cs ih =>
    intro rest
    by_cases h : c = '"' ∨ c = '\\'
    · have hesc : escStr (c :: cs) = '\\' :: c :: escStr cs := by
        rw [escStr.eq_def]
        dsimp only
        rw [if_pos h]
      rw [hesc]
      rcases h with rfl | rfl
      · have step : parseStringBody ('\\' :: '"' :: (escStr cs ++ '"' :: rest)) =
            (parseStringBody (escStr cs ++ '"' :: rest)).map
              (fun p => ('"' :: p.1, p.2)) := by
          rw [parseStringBody.eq_def]
          rfl
        rw [show ('\\' :: '"' :: escStr cs) ++ '"' :: rest =
          '\\' :: '"' :: (escStr cs ++ '"' :: rest) from rfl, step, ih rest]
        rfl
      · have step : parseStringBody ('\\' :: '\\' :: (escStr cs ++ '"' :: rest)) =
            (parseStringBody (escStr cs ++ '"' :: rest)).map
              (fun p => ('\\' :: p.1, p.2)) := by
          rw [parseStringBody.eq_def]
          rfl
        rw [show ('\\' :: '\\' :: escStr cs) ++ '"' :: rest =
          '\\' :: '\\' :: (escStr cs ++ '"' :: rest) from rfl, step, ih rest]
        rfl
    · have hq : ¬c = '"' := fun e => h (Or.inl e)
      have hb : ¬c = '\\' := fun e => h (Or.inr e)
      have hesc : escStr (c :: cs) = c :: escStr cs := by
        rw [escStr.eq_def]
        dsimp only
        rw [if_neg h]
      rw [hesc]
      rw [show (c :: escStr cs) ++ '"' :: rest = c :: (escStr cs ++ '"' :: rest) from rfl]
      have step : parseStringBody (c :: (escStr cs ++ '"' :: rest)) =
          (parseStringBody (escStr cs ++ '"' :: rest)).map (fun p => (c :: p.1, p.2)) := by
        rw [parseStringBody.eq_def]
        dsimp only
        rw [if_neg hq, if_neg hb]
      rw [step, ih rest]
      rfl

theorem jprint_head : ∀ (v : Json), jwf v = true →
    ∃ c cs, jprint v = c :: cs ∧
      (c = '{' ∨ c = '[' ∨ c = '"' ∨ c = 't' ∨ c = 'f' ∨ c = 'n' ∨ c = '-' ∨
        c.isDigit = true) := by
  intro v hwf
  cases v with
  | null => exact ⟨'n', _, rfl, by simp⟩
  | bool b =>
    cases b
    · exact ⟨'f', _, rfl, by simp⟩
    · exact ⟨'t', _, rfl, by simp⟩
  | str s => exact ⟨'"', _, rfl, by simp⟩
  | arr xs => exact ⟨'[', _, rfl, by simp⟩
  | obj fs => exact ⟨'{', _, rfl, by simp⟩
  | num n =>
    obtain ⟨neg, ip, fp, ep⟩ := n
    simp only [jwf, numWf, Bool.and_eq_true] at hwf
    obtain ⟨⟨⟨hip_ne, hip_dig⟩, -⟩, -⟩ := hwf
    cases neg with
    | true =>
      refine ⟨'-', ip ++ (printFracPart fp ++ printExpPart ep), ?_, by simp⟩
      simp [jprint, printNum]
    | false =>
      obtain ⟨i0, i1, rfl⟩ : ∃ i0 i1, ip = i0 :: i1 := by
        cases ip with
        | nil => simp at hip_ne
        | cons i0 i1 => exact ⟨i0, i1, rfl⟩
      have hi0 : i0.isDigit = true :=
        List.all_eq_true.mp hip_dig i0 (by simp)
      refine ⟨i0, i1 ++ (printFracPart fp ++ printExpPart ep), ?_, by simp [hi0]⟩
      simp [jprint, printNum]

theorem jprint_head_clean (v : Json) (h : jwf v = true) :
    ∃ c cs, jprint v = c :: cs ∧ jWs c = false ∧ c ≠ ']' ∧ c ≠ ',' ∧ c ≠ '}' := by
  obtain ⟨c, cs, hp, hc⟩ := jprint_head v h
  refine ⟨c, cs, hp, ?_, ?_, ?_, ?_⟩ <;>
    rcases hc with rfl | rfl | rfl | rfl | rfl | rfl | rfl | hd <;>
    first
      | decide
      | exact digit_not_ws _ hd
      | exact digit_ne _ _ (by decide) hd

theorem skipWs_jprint (v : Json) (h : jwf v = true) (t : List Char) :
    skipWs (jprint v ++ t) = jprint v ++ t := by
  obtain ⟨c, cs, hp, hws, -, -, -⟩ := jprint_head_clean v h
  rw [hp]
  rw [show (c :: cs) ++ t = c :: (cs ++ t) from rfl]
  simp [skipWs, List.dropWhile_cons, hws]

theorem dictInsert_not_mem_key {α : Type} (m : List (String × α)) (k : String) (v : α)
    (h : k ∉ m.map Prod.fst) : dictInsert m k v = m ++ [(k, v)] := by
  induction m with
  | nil => rfl
  | cons q t ih =>
    simp only [List.map_cons, List.mem_cons, not_or] at h
    obtain ⟨q1, q2⟩ := q
    have hne : ¬q1 = k := fun e => h.1 e.symm
    simp [dictInsert, hne, ih h.2]

theorem mem_keys_dictInsert {α : Type} (m : List (String × α)) (k : String) (v : α)
    (x : String) :
    x ∈ (dictInsert m k v).map Prod.fst ↔ x ∈ m.map Prod.fst ∨ x = k := by
  induction m with
  | nil => simp [dictInsert]
  | cons q t ih =>
    obtain ⟨q1, q2⟩ := q
    by_cases hq : q1 = k
    · simp only [dictInsert, if_pos hq, List.map_cons, List.mem_cons]
      subst hq
      tauto
    · simp only [dictInsert, if_neg hq, List.map_cons, List.mem_cons, ih]
      tauto

theorem nodupKeys_dictInsert {α : Type} (m : List (String × α)) (k : String) (v : α)
    (h : nodupKeys (m.map Prod.fst) = true) :
    nodupKeys ((dictInsert m k v).map Prod.fst) = true := by
  induction m with
  | nil => rfl
  | cons q t ih =>
    obtain ⟨q1, q2⟩ := q
    simp only [List.map_cons, nodupKeys, Bool.and_eq_true, Bool.not_eq_true'] at h
    obtain ⟨hc, hnd⟩ := h
    have hq1 : q1 ∉ t.map Prod.fst := contains_false_not_mem _ _ hc
    by_cases hq : q1 = k
    · subst hq
      simp only [dictInsert, if_pos rfl, List.map_cons, nodupKeys, Bool.and_eq_true,
        Bool.not_eq_true']
      exact ⟨not_mem_contains_false _ _ hq1, hnd⟩
    · simp only [dictInsert, if_neg hq, List.map_cons, nodupKeys, Bool.and_eq_true,
        Bool.not_eq_true']
      refine ⟨?_, ih hnd⟩
      apply not_mem_contains_false
      rw [mem_keys_dictInsert]
      rintro (hm | rfl)
      · exact hq1 hm
      · exact hq rfl

theorem nodupKeys_dictInsertAll {α : Type} (ps : List (String × α)) :
    ∀ acc : List (String × α), nodupKeys (acc.map Prod.fst) = true →
      nodupKeys ((dictInsertAll acc ps).map Prod.fst) = true := by
  induction ps with
  | nil => intro acc h; exact h
  | cons q t ih =>
    intro acc h
    exact ih (dictInsert acc q.1 q.2) (nodupKeys_dictInsert acc q.1 q.2 h)

theorem nodupKeys_mkObj (ps : List (String × Json)) :
    nodupKeys ((mkObj ps).map Prod.fst) = true :=
  nodupKeys_dictInsertAll ps [] rfl

theorem mem_dictInsert_sub {α : Type} (m : List (String × α)) (k : String) (v : α)
    (q : String × α) (h : q ∈ dictInsert m k v) : q ∈ m ∨ q = (k, v) := by
  induction m with
  | nil => simpa [dictInsert] using h
  | cons p t ih =>
    obtain ⟨p1, p2⟩ := p
    by_cases hp : p1 = k
    · simp only [dictInsert, if_pos hp, List.mem_cons] at h
      rcases h with rfl | h
      · exact Or.inr rfl
      · exact Or.inl (by simp [h])
    · simp only [dictInsert, if_neg hp, List.mem_cons] at h
      rcases h with rfl | h
      · exact Or.inl (by simp)
      · rcases ih h with hm | rfl
        · exact Or.inl (by simp [hm])
        · exact Or.inr rfl

theorem mem_dictInsertAll_sub {α : Type} (ps : List (String × α)) :
    ∀ (acc : List (String × α)) (q : String × α),
      q ∈ dictInsertAll acc ps → q ∈ acc ∨ q ∈ ps := by
  induction ps with
  | nil => intro acc q h; exact Or.inl h
  | cons p t ih =>
    intro acc q h
    rcases ih (dictInsert acc p.1 p.2) q h with hm | hm
    · rcases mem_dictInsert_sub acc p.1 p.2 q hm with hm' | rfl
      · exact Or.inl hm'
      · exact Or.inr (by simp)
    · exact Or.inr (by simp [hm])

theorem mem_mkObj_sub (ps : List (String × Json)) (q : String × Json)
    (h : q ∈ mkObj ps) : q ∈ ps := by
  rcases mem_dictInsertAll_sub ps [] q h with hm | hm
  · cases hm
  · exact hm

theorem jwfF_iff (fs : List (String × Json)) :
    jwfF fs = true ↔ ∀ q ∈ fs, jwf q.2 = true := by
  induction fs with
  | nil => simp [jwfF]
  | cons q t ih => simp [jwfF, Bool.and_eq_true, ih]

theorem jwfL_iff (xs : List Json) :
    jwfL xs = true ↔ ∀ x ∈ xs, jwf x = true := by
  induction xs with
  | nil => simp [jwfL]
  | cons x t ih => simp [jwfL, Bool.and_eq_true, ih]

theorem dictInsertAll_nodup_append {α : Type} (ps : List (String × α)) :
    ∀ acc : List (String × α),
      (∀ x ∈ ps.map Prod.fst, x ∉ acc.map Prod.fst) →
      nodupKeys (ps.map Prod.fst) = true →
      dictInsertAll acc ps = acc ++ ps := by
  induction ps with
  | nil => intro acc _ _; simp [dictInsertAll]
  | cons q t ih =>
    intro acc hdisj hnd
    obtain ⟨q1, q2⟩ := q
    simp only [List.map_cons, nodupKeys, Bool.and_eq_true, Bool.not_eq_true'] at hnd
    obtain ⟨hc, hnd⟩ := hnd
    have hq1t : q1 ∉ t.map Prod.fst := contains_false_not_mem _ _ hc
    have hq1acc : q1 ∉ acc.map Prod.fst := hdisj q1 (by simp)
    have step : dictInsertAll acc ((q1, q2) :: t) =
        dictInsertAll (dictInsert acc q1 q2) t := rfl
    rw [step, dictInsert_not_mem_key acc q1 q2 hq1acc]
    rw [ih (acc ++ [(q1, q2)]) ?_ hnd]
    · simp
    · intro x hx
      rw [List.map_append]
      simp only [List.mem_append, not_or]
      refine ⟨hdisj x (by simp [hx]), ?_⟩
      simp only [List.map_cons, List.map_nil, List.mem_singleton]
      intro e
      subst e
      exact hq1t hx

theorem mkObj_self (ps : List (String × Json))
    (h : nodupKeys (ps.map Prod.fst) = true) : mkObj ps = ps := by
  have := dictInsertAll_nodup_append ps [] (by simp) h
  simpa [mkObj, dictInsertAll] using this

theorem parseFracPart_wf (l d r : List Char)
    (h : parseFracPart l = some (some d, r)) :
    (!d.isEmpty && d.all Char.isDigit) = true := by
  cases l with
  | nil =>
    have h' : some ((none : Option (List Char)), ([] : List Char)) =
        some (some d, r) := h
    injection h' with h1
    injection h1 with h2 h3
    cases h2
  | cons c r0 =>
    by_cases hc : c = '.'
    · have step : parseFracPart (c :: r0) =
          (if (r0.takeWhile Char.isDigit).isEmpty then none
           else some (some (r0.takeWhile Char.isDigit),
             r0.drop (r0.takeWhile Char.isDigit).length)) := by
        rw [parseFracPart.eq_def]
        dsimp only
        rw [if_pos hc]
      rw [step] at h
      by_cases hie : (r0.takeWhile Char.isDigit).isEmpty = true
      · rw [if_pos hie] at h
        cases h
      · rw [if_neg hie] at h
        injection h with h1
        injection h1 with h2 h3
        injection h2 with h2'
        subst h2'
        simp only [Bool.and_eq_true, Bool.not_eq_true']
        refine ⟨by simpa using hie, List.all_eq_true.mpr ?_⟩
        intro x hx
        exact List.mem_takeWhile_imp hx
    · have step : parseFracPart (c :: r0) = some (none, c :: r0) := by
        rw [parseFracPart.eq_def]
        dsimp only
        rw [if_neg hc]
      rw [step] at h
      injection h with h1
      injection h1 with h2 h3
      cases h2

theorem parseExpPart_wf (l : List Char) (sgn : Option Bool) (d r : List Char)
    (h : parseExpPart l = some (some (sgn, d), r)) :
    (!d.isEmpty && d.all Char.isDigit) = true := by
  cases l with
  | nil =>
    have h' : some ((none : Option (Option Bool × List Char)), ([] : List Char)) =
        some (some (sgn, d), r) := h
    injection h' with h1
    injection h1 with h2 h3
    cases h2
  | cons c r0 =>
    by_cases hc : c = 'e' ∨ c = 'E'
    · have step : parseExpPart (c :: r0) =
          (let p := parseExpSign r0
           if (p.2.takeWhile Char.isDigit).isEmpty then none
           else some (some (p.1, p.2.takeWhile Char.isDigit),
             p.2.drop (p.2.takeWhile Char.isDigit).length)) := by
        rw [parseExpPart.eq_def]
        dsimp only
        rw [if_pos hc]
      rw [step] at h
      generalize hgen : parseExpSign r0 = p at h
      dsimp only at h
      by_cases hie : ((p.2.takeWhile Char.isDigit).isEmpty) = true
      · rw [if_pos hie] at h
        cases h
      · rw [if_neg hie] at h
        injection h with h1
        injection h1 with h2 h3
        injection h2 with h2'
        injection h2' with h2a h2b
        subst h2b
        simp only [Bool.and_eq_true, Bool.not_eq_true']
        refine ⟨by simpa using hie, List.all_eq_true.mpr ?_⟩
        intro x hx
        exact List.mem_takeWhile_imp hx
    · have step : parseExpPart (c :: r0) = some (none, c :: r0) := by
        rw [parseExpPart.eq_def]
        dsimp only
        rw [if_neg hc]
      rw [step] at h
      injection h with h1
      injection h1 with h2 h3
      cases h2

theorem parseNumLit_wf (l : List Char) (n : NumLit) (r : List Char)
    (h : parseNumLit l = some (n, r)) : numWf n = true := by
  have main : ∀ (b : Bool) (m : List Char),
      (if (m.takeWhile Char.isDigit).isEmpty then none
       else
         match parseFracPart (m.drop (m.takeWhile Char.isDigit).length) with
         | none => none
         | some (fp, l2) =>
           match parseExpPart l2 with
           | none => none
           | some (ep, l3) =>
             some (NumLit.mk b (m.takeWhile Char.isDigit) fp ep, l3)) =
        some (n, r) → numWf n = true := by
    intro b m hm
    by_cases hie : ((m.takeWhile Char.isDigit).isEmpty) = true
    · rw [if_pos hie] at hm
      cases hm
    · rw [if_neg hie] at hm
      cases hf : parseFracPart (m.drop (m.takeWhile Char.isDigit).length) with
      | none => rw [hf] at hm; cases hm
      | some frl =>
        obtain ⟨fp, l2⟩ := frl
        rw [hf] at hm
        dsimp only at hm
        cases he : parseExpPart l2 with
        | none => rw [he] at hm; cases hm
        | some epl =>
          obtain ⟨ep, l3⟩ := epl
          rw [he] at hm
          dsimp only at hm
          injection hm with h1
          injection h1 with h2 h3
          subst h2
          simp only [numWf, Bool.and_eq_true, Bool.not_eq_true']
          refine ⟨⟨⟨by simpa using hie, List.all_eq_true.mpr ?_⟩, ?_⟩, ?_⟩
          · intro x hx
            exact List.mem_takeWhile_imp hx
          · cases fp with
            | none => rfl
            | some d => exact parseFracPart_wf _ _ _ hf
          · cases ep with
            | none => rfl
            | some sd =>
              obtain ⟨sgn, d⟩ := sd
              exact parseExpPart_wf _ _ _ _ he
  cases l with
  | nil => exact main false [] h
  | cons c r0 =>
    by_cases hc : c = '-'
    · apply main true r0
      rw [← h, parseNumLit.eq_def]
      dsimp only
      rw [if_pos hc]
    · apply main false (c :: r0)
      rw [← h, parseNumLit.eq_def]
      dsimp only
      rw [if_neg hc]

theorem parsers_wf : ∀ fuel : Nat,
    (∀ l v r, parseValue fuel l = some (v, r) → jwf v = true) ∧
    (∀ l ps r, parseObjBody fuel l = some (ps, r) → ∀ q ∈ ps, jwf q.2 = true) ∧
    (∀ l xs r, parseArrBody fuel l = some (xs, r) → ∀ x ∈ xs, jwf x = true) := by
  intro fuel
  induction fuel using Nat.strong_induction_on with
  | _ fuel ih =>
    match fuel with
    | 0 =>
      refine ⟨fun l v r h => ?_, fun l ps r h => ?_, fun l xs r h => ?_⟩
      · rw [parseValue.eq_def] at h
        dsimp only at h
        cases h
      · rw [parseObjBody.eq_def] at h
        dsimp only at h
        cases h
      · rw [parseArrBody.eq_def] at h
        dsimp only at h
        cases h
    | fuel + 1 =>
      obtain ⟨ihv, iho, iha⟩ := ih fuel (by omega)
      refine ⟨?_, ?_, ?_⟩
      · intro l v r h
        rw [parseValue.eq_def] at h
        dsimp only at h
        cases hw : skipWs l with
        | nil => rw [hw] at h; cases h
        | cons c cr =>
          rw [hw] at h
          dsimp only at h
          by_cases h1 : c = '{'
          · rw [if_pos h1] at h
            cases ho : parseObjBody fuel (skipWs cr) with
            | none => rw [ho] at h; cases h
            | some pr =>
              obtain ⟨ps, r'⟩ := pr
              rw [ho] at h
              dsimp only [Option.map] at h
              injection h with h1'
              injection h1' with hv hr
              subst hv
              simp only [jwf, Bool.and_eq_true]
              exact ⟨nodupKeys_mkObj ps,
                (jwfF_iff _).mpr fun q hq => iho _ _ _ ho q (mem_mkObj_sub ps q hq)⟩
          · rw [if_neg h1] at h
            by_cases h2 : c = '['
            · rw [if_pos h2] at h
              cases ha : parseArrBody fuel (skipWs cr) with
              | none => rw [ha] at h; cases h
              | some pr =>
                obtain ⟨xs, r'⟩ := pr
                rw [ha] at h
                dsimp only [Option.map] at h
                injection h with h1'
                injection h1' with hv hr
                subst hv
                simp only [jwf]
                exact (jwfL_iff _).mpr fun x hx => iha _ _ _ ha x hx
            · rw [if_neg h2] at h
              by_cases h3 : c = '"'
              · rw [if_pos h3] at h
                cases hs : parseStringBody cr with
                | none => rw [hs] at h; cases h
                | some pr =>
                  obtain ⟨sc, r'⟩ := pr
                  rw [hs] at h
                  dsimp only [Option.map] at h
                  injection h with h1'
                  injection h1' with hv hr
                  subst hv
                  rfl
              · rw [if_neg h3] at h
                by_cases h4 : (['t', 'r', 'u', 'e'].isPrefixOf (c :: cr)) = true
                · rw [if_pos h4] at h
                  injection h with h1'
                  injection h1' with hv hr
                  subst hv
                  rfl
                · rw [if_neg h4] at h
                  by_cases h5 : (['f', 'a', 'l', 's', 'e'].isPrefixOf (c :: cr)) = true
                  · rw [if_pos h5] at h
                    injection h with h1'
                    injection h1' with hv hr
                    subst hv
                    rfl
                  · rw [if_neg h5] at h
                    by_cases h6 : (['n', 'u', 'l', 'l'].isPrefixOf (c :: cr)) = true
                    · rw [if_pos h6] at h
                      injection h with h1'
                      injection h1' with hv hr
                      subst hv
                      rfl
                    · rw [if_neg h6] at h
                      cases hn : parseNumLit (c :: cr) with
                      | none => rw [hn] at h; cases h
                      | some pr =>
                        obtain ⟨n, r'⟩ := pr
                        rw [hn] at h
                        dsimp only [Option.map] at h
                        injection h with h1'
                        injection h1' with hv hr
                        subst hv
                        exact parseNumLit_wf _ _ _ hn
      · intro l ps r h
        rw [parseObjBody.eq_def] at h
        dsimp only at h
        cases l with
        | nil => dsimp only at h; cases h
        | cons c cr =>
          dsimp only at h
          by_cases h1 : c = '}'
          · rw [if_pos h1] at h
            injection h with h1'
            injection h1' with hv hr
            subst hv
            intro q hq
            cases hq
          · rw [if_neg h1] at h
            by_cases h2 : c = '"'
            · rw [if_pos h2] at h
              cases hs : parseStringBody cr with
              | none => rw [hs] at h; cases h
              | some pr =>
                obtain ⟨k, r1⟩ := pr
                rw [hs] at h
                dsimp only at h
                cases hw : skipWs r1 with
                | nil => rw [hw] at h; cases h
                | cons c2 r2 =>
                  rw [hw] at h
                  dsimp only at h
                  by_cases hc2 : c2 = ':'
                  · rw [if_pos hc2] at h
                    cases hv : parseValue fuel r2 with
                    | none => rw [hv] at h; cases h
                    | some pr2 =>
                      obtain ⟨v, r3⟩ := pr2
                      rw [hv] at h
                      dsimp only at h
                      cases hw3 : skipWs r3 with
                      | nil => rw [hw3] at h; cases h
                      | cons c3 r4 =>
                        rw [hw3] at h
                        dsimp only at h
                        by_cases hc3 : c3 = ','
                        · rw [if_pos hc3] at h
                          cases hob : parseObjBody fuel (skipWs r4) with
                          | none => rw [hob] at h; cases h
                          | some pr3 =>
                            obtain ⟨ps', r5⟩ := pr3
                            rw [hob] at h
                            dsimp only [Option.map] at h
                            injection h with h1'
                            injection h1' with hps hr
                            subst hps
                            intro q hq
                            rcases List.mem_cons.mp hq with rfl | hq'
                            · exact ihv _ _ _ hv
                            · exact iho _ _ _ hob q hq'
                        · rw [if_neg hc3] at h
                          by_cases hc3' : c3 = '}'
                          · rw [if_pos hc3'] at h
                            injection h with h1'
                            injection h1' with hps hr
                            subst hps
                            intro q hq
                            rcases List.mem_cons.mp hq with rfl | hq'
                            · exact ihv _ _ _ hv
                            · cases hq'
                          · rw [if_neg hc3'] at h
                            cases h
                  · rw [if_neg hc2] at h
                    cases h
            · rw [if_neg h2] at h
              cases h
      · intro l xs r h
        rw [parseArrBody.eq_def] at h
        dsimp only at h
        by_cases h1 : l.headD ' ' = ']'
        · rw [if_pos h1] at h
          injection h with h1'
          injection h1' with hv hr
          subst hv
          intro x hx
          cases hx
        · rw [if_neg h1] at h
          cases hv : parseValue fuel l with
          | none => rw [hv] at h; cases h
          | some pr =>
            obtain ⟨v, r1⟩ := pr
            rw [hv] at h
            dsimp only at h
            cases hw : skipWs r1 with
            | nil => rw [hw] at h; cases h
            | cons c2 r2 =>
              rw [hw] at h
              dsimp only at h
              by_cases hc2 : c2 = ','
              · rw [if_pos hc2] at h
                cases hab : parseArrBody fuel (skipWs r2) with
                | none => rw [hab] at h; cases h
                | some pr2 =>
                  obtain ⟨xs', r3⟩ := pr2
                  rw [hab] at h
                  dsimp only [Option.map] at h
                  injection h with h1'
                  injection h1' with hxs hr
                  subst hxs
                  intro x hx
                  rcases List.mem_cons.mp hx with rfl | hx'
                  · exact ihv _ _ _ hv
                  · exact iha _ _ _ hab x hx'
              · rw [if_neg hc2] at h
                by_cases hc2' : c2 = ']'
                · rw [if_pos hc2'] at h
                  injection h with h1'
                  injection h1' with hxs hr
                  subst hxs
                  intro x hx
                  rcases List.mem_cons.mp hx with rfl | hx'
                  · exact ihv _ _ _ hv
                  · cases hx'
                · rw [if_neg hc2'] at h
                  cases h

theorem skipWs_cons_nws (c : Char) (t : List Char) (h : jWs c = false) :
    skipWs (c :: t) = c :: t := by
  simp [skipWs, List.dropWhile_cons, h]

theorem isPrefixOf_cons_ne (a b : Char) (as bs : List Char) (h : ¬a = b) :
    (a :: as).isPrefixOf (b :: bs) = false := by
  have hb : (a == b) = false := by simp [h]
  simp [List.isPrefixOf, hb]

theorem printNum_head (n : NumLit) (h : numWf n = true) :
    ∃ c cs, printNum n = c :: cs ∧ (c = '-' ∨ c.isDigit = true) := by
  obtain ⟨neg, ip, fp, ep⟩ := n
  simp only [numWf, Bool.and_eq_true] at h
  obtain ⟨⟨⟨hip_ne, hip_dig⟩, -⟩, -⟩ := h
  cases neg with
  | true =>
    exact ⟨'-', ip ++ (printFracPart fp ++ printExpPart ep), by simp [printNum], Or.inl rfl⟩
  | false =>
    obtain ⟨i0, i1, rfl⟩ : ∃ i0 i1, ip = i0 :: i1 := by
      cases ip with
      | nil => simp at hip_ne
      | cons a b => exact ⟨a, b, rfl⟩
    have hi0 : i0.isDigit = true := List.all_eq_true.mp hip_dig i0 (by simp)
    exact ⟨i0, i1 ++ (printFracPart fp ++ printExpPart ep), by simp [printNum], Or.inr hi0⟩

theorem jprintBodyO_cons_head (m : String × Json) (fs : List (String × Json)) :
    ∃ t, jprintBodyO (m :: fs) = '"' :: t := by
  obtain ⟨k, v⟩ := m
  cases fs with
  | nil => exact ⟨escStr k.data ++ '"' :: ':' :: jprint v, rfl⟩
  | cons f fs2 =>
    exact ⟨escStr k.data ++ '"' :: ':' :: jprint v ++ ',' :: jprintBodyO (f :: fs2), by
      simp [jprintBodyO, printMember]⟩

theorem jprintBodyA_cons_head (x : Json) (xs : List Json) (hx : jwf x = true) :
    ∃ c t, jprintBodyA (x :: xs) = c :: t ∧ jWs c = false := by
  obtain ⟨c, cs, hp, hws, -, -, -⟩ := jprint_head_clean x hx
  cases xs with
  | nil => exact ⟨c, cs, by simpa [jprintBodyA] using hp, hws⟩
  | cons y ys =>
    exact ⟨c, cs ++ ',' :: jprintBodyA (y :: ys), by simp [jprintBodyA, hp], hws⟩

theorem skipWs_bodyO (fs : List (String × Json)) (rest : List Char) :
    skipWs (jprintBodyO fs ++ '}' :: rest) = jprintBodyO fs ++ '}' :: rest := by
  cases fs with
  | nil =>
    show skipWs ([] ++ '}' :: rest) = [] ++ '}' :: rest
    rw [List.nil_append]
    exact skipWs_cons_nws _ _ (by decide)
  | cons m fs2 =>
    obtain ⟨t, ht⟩ := jprintBodyO_cons_head m fs2
    rw [ht]
    rw [show ('"' :: t) ++ '}' :: rest = '"' :: (t ++ '}' :: rest) from rfl]
    exact skipWs_cons_nws _ _ (by decide)

theorem skipWs_bodyA (xs : List Json) (rest : List Char) (h : jwfL xs = true) :
    skipWs (jprintBodyA xs ++ ']' :: rest) = jprintBodyA xs ++ ']' :: rest := by
  cases xs with
  | nil =>
    show skipWs ([] ++ ']' :: rest) = [] ++ ']' :: rest
    rw [List.nil_append]
    exact skipWs_cons_nws _ _ (by decide)
  | cons x xs2 =>
    have hx : jwf x = true := by
      simp only [jwfL, Bool.and_eq_true] at h
      exact h.1
    obtain ⟨c, t, ht, hws⟩ := jprintBodyA_cons_head x xs2 hx
    rw [ht]
    rw [show (c :: t) ++ ']' :: rest = c :: (t ++ ']' :: rest) from rfl]
    exact skipWs_cons_nws _ _ hws

theorem delimOk_head (v : Json) (c : Char) (rest : List Char) (h : numCont c = false) :
    delimOk v (c :: rest) = true := by
  cases v <;> simp [delimOk, notNumCont, h]

theorem delimOk_nil (v : Json) : delimOk v [] = true := by
  cases v <;> rfl

theorem parsePrint : ∀ fuel : Nat,
    (∀ v rest, jwf v = true → (jprint v).length + 1 ≤ fuel → delimOk v rest = true →
       parseValue fuel (jprint v ++ rest) = some (v, rest)) ∧
    (∀ fs rest, jwfF fs = true → (jprintBodyO fs).length + 2 ≤ fuel →
       parseObjBody fuel (jprintBodyO fs ++ '}' :: rest) = some (fs, rest)) ∧
    (∀ xs rest, jwfL xs = true → (jprintBodyA xs).length + 2 ≤ fuel →
       parseArrBody fuel (jprintBodyA xs ++ ']' :: rest) = some (xs, rest)) := by
  intro fuel
  induction fuel using Nat.strong_induction_on with
  | _ fuel ih =>
    match fuel with
    | 0 =>
      refine ⟨fun v rest _ hf _ => absurd hf (by omega),
              fun fs rest _ hf => absurd hf (by omega),
              fun xs rest _ hf => absurd hf (by omega)⟩
    | fuel + 1 =>
      obtain ⟨ihv, iho, iha⟩ := ih fuel (by omega)
      refine ⟨?_, ?_, ?_⟩
      · intro v rest hwf hfl hdel
        cases v with
        | null =>
          show parseValue (fuel + 1) ('n' :: 'u' :: 'l' :: 'l' :: rest) = some (Json.null, rest)
          rw [parseValue.eq_def]
          dsimp only
          rw [skipWs_cons_nws _ _ (by decide)]
          dsimp only
          have hpre : (['n', 'u', 'l', 'l'] : List Char).isPrefixOf
              ('n' :: 'u' :: 'l' :: 'l' :: rest) = true :=
            isPrefixOf_append_self ['n', 'u', 'l', 'l'] rest
          rw [if_neg (by decide : ¬('n' : Char) = '{'),
              if_neg (by decide : ¬('n' : Char) = '['),
              if_neg (by decide : ¬('n' : Char) = '"'),
              if_neg (ne_true_of_eq_false (isPrefixOf_cons_ne 't' 'n' _ _ (by decide))),
              if_neg (ne_true_of_eq_false (isPrefixOf_cons_ne 'f' 'n' _ _ (by decide))),
              if_pos hpre]
          rfl
        | bool b =>
          cases b with
          | true =>
            show parseValue (fuel + 1) ('t' :: 'r' :: 'u' :: 'e' :: rest) =
              some (Json.bool true, rest)
            rw [parseValue.eq_def]
            dsimp only
            rw [skipWs_cons_nws _ _ (by decide)]
            dsimp only
            have hpre : (['t', 'r', 'u', 'e'] : List Char).isPrefixOf
                ('t' :: 'r' :: 'u' :: 'e' :: rest) = true :=
              isPrefixOf_append_self ['t', 'r', 'u', 'e'] rest
            rw [if_neg (by decide : ¬('t' : Char) = '{'),
                if_neg (by decide : ¬('t' : Char) = '['),
                if_neg (by decide : ¬('t' : Char) = '"'),
                if_pos hpre]
            rfl
          | false =>
            show parseValue (fuel + 1) ('f' :: 'a' :: 'l' :: 's' :: 'e' :: rest) =
              some (Json.bool false, rest)
            rw [parseValue.eq_def]
            dsimp only
            rw [skipWs_cons_nws _ _ (by decide)]
            dsimp only
            have hpre : (['f', 'a', 'l', 's', 'e'] : List Char).isPrefixOf
                ('f' :: 'a' :: 'l' :: 's' :: 'e' :: rest) = true :=
              isPrefixOf_append_self ['f', 'a', 'l', 's', 'e'] rest
            rw [if_neg (by decide : ¬('f' : Char) = '{'),
                if_neg (by decide : ¬('f' : Char) = '['),
                if_neg (by decide : ¬('f' : Char) = '"'),
                if_neg (ne_true_of_eq_false (isPrefixOf_cons_ne 't' 'f' _ _ (by decide))),
                if_pos hpre]
            rfl
        | str s =>
          have hl : jprint (Json.str s) ++ rest = '"' :: (escStr s.data ++ '"' :: rest) := by
            simp [jprint]
          rw [hl, parseValue.eq_def]
          dsimp only
          rw [skipWs_cons_nws _ _ (by decide)]
          dsimp only
          rw [if_neg (by decide : ¬('"' : Char) = '{'),
              if_neg (by decide : ¬('"' : Char) = '['),
              if_pos (rfl : ('"' : Char) = '"')]
          rw [parseStringBody_escStr s.data rest]
          rfl
        | num n =>
          have hnwf : numWf n = true := hwf
          obtain ⟨c, cs, hp, hc⟩ := printNum_head n hnwf
          have hl : jprint (Json.num n) ++ rest = c :: (cs ++ rest) := by
            show printNum n ++ rest = c :: (cs ++ rest)
            rw [hp]
            rfl
          have hws : jWs c = false := by
            rcases hc with rfl | hd
            · decide
            · exact digit_not_ws c hd
          have hne : ∀ x : Char, x.isDigit = false → ('-' : Char) ≠ x → c ≠ x := by
            intro x hx hmx
            rcases hc with rfl | hd
            · exact hmx
            · exact digit_ne c x hx hd
          rw [hl, parseValue.eq_def]
          dsimp only
          rw [skipWs_cons_nws _ _ hws]
          dsimp only
          rw [if_neg (hne '{' (by decide) (by decide)),
              if_neg (hne '[' (by decide) (by decide)),
              if_neg (hne '"' (by decide) (by decide)),
              if_neg (ne_true_of_eq_false
                (isPrefixOf_cons_ne 't' c _ _ (Ne.symm (hne 't' (by decide) (by decide))))),
              if_neg (ne_true_of_eq_false
                (isPrefixOf_cons_ne 'f' c _ _ (Ne.symm (hne 'f' (by decide) (by decide))))),
              if_neg (ne_true_of_eq_false
                (isPrefixOf_cons_ne 'n' c _ _ (Ne.symm (hne 'n' (by decide) (by decide)))))]
          have harg : c :: (cs ++ rest) = printNum n ++ rest := by
            rw [hp]
            rfl
          rw [harg, parseNumLit_printNum n rest hnwf hdel]
          rfl
        | arr xs =>
          have hwfl : jwfL xs = true := hwf
          have hl : jprint (Json.arr xs) ++ rest = '[' :: (jprintBodyA xs ++ ']' :: rest) := by
            simp [jprint]
          have hlen : (jprint (Json.arr xs)).length = (jprintBodyA xs).length + 2 := by
            simp [jprint]
          rw [hl, parseValue.eq_def]
          dsimp only
          rw [skipWs_cons_nws _ _ (by decide)]
          dsimp only
          rw [if_neg (by decide : ¬('[' : Char) = '{'), if_pos (rfl : ('[' : Char) = '[')]
          rw [skipWs_bodyA xs rest hwfl]
          rw [iha xs rest hwfl (by omega)]
          rfl
        | obj fs =>
          have hO : (nodupKeys (fs.map Prod.fst) && jwfF fs) = true := hwf
          simp only [Bool.and_eq_true] at hO
          obtain ⟨hnd, hF⟩ := hO
          have hl : jprint (Json.obj fs) ++ rest = '{' :: (jprintBodyO fs ++ '}' :: rest) := by
            simp [jprint]
          have hlen : (jprint (Json.obj fs)).length = (jprintBodyO fs).length + 2 := by
            simp [jprint]
          rw [hl, parseValue.eq_def]
          dsimp only
          rw [skipWs_cons_nws _ _ (by decide)]
          dsimp only
          rw [if_pos (rfl : ('{' : Char) = '{')]
          rw [skipWs_bodyO fs rest]
          rw [iho fs rest hF (by omega)]
          dsimp only [Option.map]
          rw [mkObj_self fs hnd]
      · intro fs rest hwfF hfl
        cases fs with
        | nil =>
          show parseObjBody (fuel + 1) ('}' :: rest) = some ([], rest)
          rw [parseObjBody.eq_def]
          dsimp only
          rw [if_pos (rfl : ('}' : Char) = '}')]
        | cons m fs2 =>
          obtain ⟨k, v⟩ := m
          have hv : jwf v = true := by
            simp only [jwfF, Bool.and_eq_true] at hwfF
            exact hwfF.1
          have hF2 : jwfF fs2 = true := by
            simp only [jwfF, Bool.and_eq_true] at hwfF
            exact hwfF.2
          cases fs2 with
          | nil =>
            have hl : jprintBodyO [(k, v)] ++ '}' :: rest =
                '"' :: (escStr k.data ++ '"' :: (':' :: (jprint v ++ '}' :: rest))) := by
              simp [jprintBodyO, printMember]
            have hlen : (jprintBodyO [(k, v)]).length =
                (escStr k.data).length + ((jprint v).length + 3) := by
              simp only [jprintBodyO, printMember, List.length_cons, List.length_append]
              omega
            rw [hl, parseObjBody.eq_def]
            dsimp only
            rw [if_neg (by decide : ¬('"' : Char) = '}'), if_pos (rfl : ('"' : Char) = '"')]
            rw [parseStringBody_escStr k.data (':' :: (jprint v ++ '}' :: rest))]
            dsimp only
            rw [skipWs_cons_nws _ _ (by decide)]
            dsimp only
            rw [if_pos (rfl : (':' : Char) = ':')]
            rw [ihv v ('}' :: rest) hv (by omega) (delimOk_head v '}' rest (by decide))]
            dsimp only
            rw [skipWs_cons_nws _ _ (by decide)]
            dsimp only
            rw [if_neg (by decide : ¬('}' : Char) = ','), if_pos (rfl : ('}' : Char) = '}')]
          | cons m2 fs3 =>
            have hl : jprintBodyO ((k, v) :: m2 :: fs3) ++ '}' :: rest =
                '"' :: (escStr k.data ++ '"' :: (':' :: (jprint v ++
                  ',' :: (jprintBodyO (m2 :: fs3) ++ '}' :: rest)))) := by
              simp [jprintBodyO, printMember]
            have hlen : (jprintBodyO ((k, v) :: m2 :: fs3)).length =
                (escStr k.data).length + (jprint v).length +
                  (jprintBodyO (m2 :: fs3)).length + 4 := by
              simp only [jprintBodyO, printMember, List.length_cons, List.length_append]
              omega
            rw [hl, parseObjBody.eq_def]
            dsimp only
            rw [if_neg (by decide : ¬('"' : Char) = '}'), if_pos (rfl : ('"' : Char) = '"')]
            rw [parseStringBody_escStr k.data
              (':' :: (jprint v ++ ',' :: (jprintBodyO (m2 :: fs3) ++ '}' :: rest)))]
            dsimp only
            rw [skipWs_cons_nws _ _ (by decide)]
            dsimp only
            rw [if_pos (rfl : (':' : Char) = ':')]
            rw [ihv v (',' :: (jprintBodyO (m2 :: fs3) ++ '}' :: rest)) hv (by omega)
                (delimOk_head v ',' _ (by decide))]
            dsimp only
            rw [skipWs_cons_nws _ _ (by decide)]
            dsimp only
            rw [if_pos (rfl : (',' : Char) = ',')]
            rw [skipWs_bodyO (m2 :: fs3) rest]
            rw [iho (m2 :: fs3) rest hF2 (by omega)]
            rfl
      · intro xs rest hwfL hfl
        cases xs with
        | nil =>
          show parseArrBody (fuel + 1) (']' :: rest) = some ([], rest)
          rw [parseArrBody.eq_def]
          dsimp only
          rw [if_pos (show ((']' :: rest).headD ' ' = ']') from rfl)]
          rfl
        | cons x xs2 =>
          have hx : jwf x = true := by
            simp only [jwfL, Bool.and_eq_true] at hwfL
            exact hwfL.1
          have hL2 : jwfL xs2 = true := by
            simp only [jwfL, Bool.and_eq_true] at hwfL
            exact hwfL.2
          obtain ⟨c, cs, hp, hws, hrb, hcm, hcb⟩ := jprint_head_clean x hx
          have hjlen : (jprint x).length = cs.length + 1 := by
            rw [hp]
            rfl
          cases xs2 with
          | nil =>
            have hl : jprintBodyA [x] ++ ']' :: rest = jprint x ++ ']' :: rest := by
              simp [jprintBodyA]
            have hlen : (jprintBodyA [x]).length = (jprint x).length := by
              simp [jprintBodyA]
            rw [hl, parseArrBody.eq_def]
            dsimp only
            have hhead : ¬((jprint x ++ ']' :: rest).headD ' ' = ']') := by
              intro e
              rw [hp] at e
              exact hrb e
            rw [if_neg hhead]
            rw [ihv x (']' :: rest) hx (by omega) (delimOk_head x ']' rest (by decide))]
            dsimp only
            rw [skipWs_cons_nws _ _ (by decide)]
            dsimp only
            rw [if_neg (by decide : ¬(']' : Char) = ','), if_pos (rfl : (']' : Char) = ']')]
          | cons y ys =>
            have hl : jprintBodyA (x :: y :: ys) ++ ']' :: rest =
                jprint x ++ ',' :: (jprintBodyA (y :: ys) ++ ']' :: rest) := by
              simp [jprintBodyA]
            have hlen : (jprintBodyA (x :: y :: ys)).length =
                (jprint x).length + (jprintBodyA (y :: ys)).length + 1 := by
              simp only [jprintBodyA, List.length_append, List.length_cons]
              omega
            rw [hl, parseArrBody.eq_def]
            dsimp only
            have hhead :
                ¬((jprint x ++ ',' :: (jprintBodyA (y :: ys) ++ ']' :: rest)).headD ' '
                  = ']') := by
              intro e
              rw [hp] at e
              exact hrb e
            rw [if_neg hhead]
            rw [ihv x (',' :: (jprintBodyA (y :: ys) ++ ']' :: rest)) hx (by omega)
                (delimOk_head x ',' _ (by decide))]
            dsimp only
            rw [skipWs_cons_nws _ _ (by decide)]
            dsimp only
            rw [if_pos (rfl : (',' : Char) = ',')]
            rw [skipWs_bodyA (y :: ys) rest hL2]
            rw [iha (y :: ys) rest hL2 (by omega)]
            rfl

theorem jsonLoads_wf (s : String) (v : Json) (h : jsonLoads s = some v) :
    jwf v = true := by
  unfold jsonLoads at h
  cases hp : parseValue (s.length + 1) s.data with
  | none => rw [hp] at h; cases h
  | some pr =>
    obtain ⟨v2, rest⟩ := pr
    rw [hp] at h
    dsimp only at h
    by_cases hw : skipWs rest = []
    · rw [if_pos hw] at h
      injection h with hv
      subst hv
      exact (parsers_wf _).1 _ _ _ hp
    · rw [if_neg hw] at h
      cases h

theorem jsonLoads_print (v : Json) (h : jwf v = true) :
    jsonLoads (String.mk (jprint v)) = some v := by
  unfold jsonLoads
  have hp : parseValue ((jprint v).length + 1) (jprint v ++ []) = some (v, []) :=
    (parsePrint _).1 v [] h (by omega) (delimOk_nil v)
  rw [List.append_nil] at hp
  rw [show (String.mk (jprint v)).length = (jprint v).length from rfl,
      show (String.mk (jprint v)).data = jprint v from rfl, hp]
  rfl

/-- C9: whenever `json_parser` succeeds on an input, the field mapping it
returns is exactly the decoded top-level JSON object of the stripped input
text — no key is lost and no value is coerced — and serialising that mapping
back with the compact JSON encoder yields text that decodes to the very same
object, so the key/value structure round-trips exactly. -/
theorem json_round_trip (s : String) (fields : List (String × Json))
    (h : jsonParseTool s = Except.ok fields) :
    jsonLoads (String.mk (pyStrip s.data)) = some (Json.obj fields) ∧
    jsonLoads (String.mk (jprint (Json.obj fields))) = some (Json.obj fields) := by
  unfold jsonParseTool at h
  by_cases ht : pyStrip s.data = []
  · rw [if_pos ht] at h
    cases h
  · rw [if_neg ht] at h
    cases hl : jsonLoads (String.mk (pyStrip s.data)) with
    | none => rw [hl] at h; cases h
    | some jv =>
      rw [hl] at h
      cases jv with
      | obj fs =>
        dsimp only at h
        injection h with hf
        subst hf
        refine ⟨rfl, ?_⟩
        exact jsonLoads_print _ (jsonLoads_wf _ _ hl)
      | null => dsimp only at h; cases h
      | bool b => dsimp only at h; cases h
      | num n => dsimp only at h; cases h
      | str s2 => dsimp only at h; cases h
      | arr xs => dsimp only at h; cases h

theorem json_round_trip_wit :
    jsonLoads (String.mk (pyStrip
        (String.mk (jprint (Json.obj [("a", jone)]))).data)) =
      some (Json.obj [("a", jone)]) ∧
    jsonLoads (String.mk (jprint (Json.obj [("a", jone)]))) =
      some (Json.obj [("a", jone)]) :=
  json_round_trip (String.mk (jprint (Json.obj [("a", jone)]))) [("a", jone)] (by rfl)
